import Mathlib

/-!
# Verification of the variable binding and scoping engine (GNU Make fork)

Shallow embedding of `variable.c` (the repository's variable engine):
variable sets, origin-precedence-gated definition/removal, scope chains,
pattern-specific variables, the flavor transformations of
`do_variable_definition`, the definition-line parser, and the
environment projector `target_environment`.

Strings from the C code are modelled as Lean `String`/`List Char`;
hash tables keyed by name are modelled as name-keyed association lists
(find = first entry with the name, insert = append, `hash_insert_at`
on a vacant slot); machine pointers become values or list positions.
Source-location metadata (`floc`/`fileinfo`) carries no behavior used by
any claim and is omitted from the record.
-/

namespace GmakeVars

/-- Modelled from the spec: the origin (precedence) ladder of `enum
variable_origin`, whose declaration is in `variable.h`, not among the
provided sources.  The spec fixes the ascending strength order
automatic < default < environment < makefile <
environment-under-force-override < command-line < override-directive.
(`o_invalid` is "core dump time" and is never stored in a binding.) -/
inductive variable_origin where
  | o_automatic
  | o_default
  | o_env
  | o_file
  | o_env_override
  | o_command
  | o_override
  deriving DecidableEq, Repr

open variable_origin

/-- The integer value of an origin as used by the C comparison
`(int) origin >= (int) v->origin`; per the spec-modelled ladder. -/
def originRank : variable_origin → Nat
  | o_automatic => 0
  | o_default => 1
  | o_env => 2
  | o_file => 3
  | o_env_override => 4
  | o_command => 5
  | o_override => 6

/-- `enum variable_export` of a binding. -/
inductive variable_export where
  | v_default
  | v_export
  | v_noexport
  | v_ifset
  deriving DecidableEq, Repr

open variable_export

/-- `enum variable_flavor`.  `f_bogus` ("not a definition") never reaches
`do_variable_definition`: the parser returns NULL instead, which the
embedding models as `Option.none`, so `f_bogus` is not represented. -/
inductive variable_flavor where
  | f_simple
  | f_recursive
  | f_expand
  | f_shell
  | f_append
  | f_append_value
  deriving DecidableEq, Repr

open variable_flavor

/-- `enum variable_scope` selecting where `do_variable_definition`
stores the binding. -/
inductive variable_scope where
  | s_global
  | s_target
  | s_pattern
  deriving DecidableEq, Repr

open variable_scope

/-- `struct variable`: one name/value binding and its metadata
(`variable` is a Lean keyword, hence the capitalized name). -/
structure Variable where
  name : String
  value : String
  origin : variable_origin
  recursive : Bool
  append : Bool
  conditional : Bool
  export_status : variable_export
  exportable : Bool
  private_var : Bool
  special : Bool
  deriving DecidableEq, Repr

/-- ASCII letter test of the C exportability check. -/
def c_isalpha (c : Char) : Bool :=
  ('A' ≤ c && c ≤ 'Z') || ('a' ≤ c && c ≤ 'z')

/-- `ISDIGIT`. -/
def c_isdigit (c : Char) : Bool :=
  '0' ≤ c && c ≤ '9'

/-- The exportability computation of `define_variable_in_set`: first
character `_` or a letter, the rest `_`, letters or digits. -/
def exportable_name : List Char → Bool
  | [] => false
  | c :: rest =>
      (c == '_' || c_isalpha c)
        && rest.all (fun d => d == '_' || c_isalpha d || c_isdigit d)

/-- `struct variable_set`: a name-keyed table of bindings. -/
structure variable_set where
  vars : List Variable
  deriving DecidableEq, Repr

/-- The empty set built by `hash_init`. -/
def empty_set : variable_set := ⟨[]⟩

/-- `lookup_variable_in_set` (also `hash_find_item` keyed by name). -/
def lookup_variable_in_set (name : String) (set : variable_set) :
    Option Variable :=
  set.vars.find? (fun v => v.name == name)

/-- Replace the first entry satisfying `p` (the in-place mutation of a
binding found in the hash table). -/
def replace_first (p : α → Bool) (a : α) : List α → List α
  | [] => []
  | x :: xs => if p x then a :: xs else x :: replace_first p a xs

/-- Remove the first entry satisfying `p` (`hash_delete_at`). -/
def remove_first (p : α → Bool) : List α → List α
  | [] => []
  | x :: xs => if p x then xs else x :: remove_first p xs

/-- Store `v'` as the binding named `name` of `set` (mutation of the
found slot). -/
def vs_store (name : String) (v' : Variable) (set : variable_set) :
    variable_set :=
  ⟨replace_first (fun w => w.name == name) v' set.vars⟩

/-- `define_variable_in_set`: precedence-gated insert-or-update.
`env_overrides` is the global `-e` mode flag.  Faithful to the source:
an incoming `o_env` origin is turned into `o_env_override` under
`env_overrides`; a found binding with origin `o_env` is promoted in
place to `o_env_override` under `env_overrides`; the update happens
iff the (possibly promoted) incoming rank is ≥ the existing rank,
otherwise the existing binding is returned unchanged; a fresh binding
gets `export = v_default` and the computed exportability.
(The `variable_changenum` counter and the advisory name diagnostic
have no effect on the stored data and are not represented.) -/
def define_variable_in_set (env_overrides : Bool) (name value : String)
    (origin : variable_origin) (recursive : Bool) (set : variable_set) :
    Variable × variable_set :=
  let origin := if env_overrides && origin == o_env then o_env_override else origin
  match lookup_variable_in_set name set with
  | some v =>
      let v := if env_overrides && v.origin == o_env then
                 { v with origin := o_env_override } else v
      if originRank v.origin ≤ originRank origin then
        let v' := { v with value := value, origin := origin,
                           recursive := recursive }
        (v', vs_store name v' set)
      else
        (v, vs_store name v set)
  | none =>
      let v : Variable :=
        { name := name, value := value, origin := origin,
          recursive := recursive, append := false, conditional := false,
          export_status := v_default,
          exportable := exportable_name name.data,
          private_var := false, special := false }
      (v, ⟨set.vars ++ [v]⟩)

/-- `undefine_variable_in_set`: precedence-gated removal, with the same
`env_overrides` promotions as `define_variable_in_set`. -/
def undefine_variable_in_set (env_overrides : Bool) (name : String)
    (origin : variable_origin) (set : variable_set) : variable_set :=
  let origin := if env_overrides && origin == o_env then o_env_override else origin
  match lookup_variable_in_set name set with
  | some v =>
      let v := if env_overrides && v.origin == o_env then
                 { v with origin := o_env_override } else v
      if originRank v.origin ≤ originRank origin then
        ⟨remove_first (fun w => w.name == name) set.vars⟩
      else
        vs_store name v set
  | none => set

/-- One `struct variable_set_list` node: a reference to a set and the
"successor is the lexical parent" flag.  `is_global` records whether the
node is the statically allocated `global_setlist` (pointer identity in
the C code, used by `push_new_variable_scope` / `pop_variable_scope`). -/
structure setlist_node where
  set : variable_set
  next_is_parent : Bool
  is_global : Bool
  deriving DecidableEq, Repr

/-- The loop of `lookup_variable`: walk the chain, skipping a private
binding once a parent boundary has been crossed.  (The
`lookup_special_var` hook only rewrites the cached text of the
synthetic `.VARIABLES` binding and is not represented.) -/
def lookup_variable_loop (name : String) :
    List setlist_node → Bool → Option Variable
  | [], _ => none
  | n :: rest, is_parent =>
      match lookup_variable_in_set name n.set with
      | some v =>
          if !is_parent || !v.private_var then some v
          else lookup_variable_loop name rest (is_parent || n.next_is_parent)
      | none => lookup_variable_loop name rest (is_parent || n.next_is_parent)

/-- `lookup_variable` over a scope chain (most specific first, the
global node last). -/
def lookup_variable (name : String) (chain : List setlist_node) :
    Option Variable :=
  lookup_variable_loop name chain false

/-- The scope chain reachable from `current_variable_set_list`: a
nonempty sequence of nodes. -/
structure scope_chain where
  top : setlist_node
  rest : List setlist_node
  deriving DecidableEq, Repr

/-- `create_new_variable_set` + `push_new_variable_scope`.  A fresh
empty set is pushed in front of the current node; if the current node
is the global one, the set contents are swapped between the new node
and the global node so that every holder of the global node keeps
pointing at "the" global scope while seeing the fresh contents, and the
displaced contents become the node behind it. -/
def push_new_variable_scope (st : scope_chain) : scope_chain :=
  if st.top.is_global then
    { top := { st.top with set := empty_set },
      rest := ⟨st.top.set, false, false⟩ :: st.rest }
  else
    { top := ⟨empty_set, false, false⟩, rest := st.top :: st.rest }

/-- `pop_variable_scope`.  `none` models the fatal
`assert (current_variable_set_list->next != NULL)` firing; otherwise
the result is the remaining chain paired with the one set that was
freed (`hash_map free / hash_free / free`). -/
def pop_variable_scope (st : scope_chain) :
    Option (scope_chain × variable_set) :=
  match st.rest with
  | [] => none
  | s :: rest' =>
      if st.top.is_global then
        let top' := { st.top with set := s.set, next_is_parent := s.next_is_parent }
        some ({ top := top', rest := rest' }, st.top.set)
      else
        some ({ top := s, rest := rest' }, st.top.set)

/-- The makefile-facing global state used by `do_variable_definition`:
the chain nodes in front of the global node (`current_variable_set_list`
down to, but excluding, `global_setlist`), the global set, and the `-e`
mode flag. -/
structure world where
  locals : List setlist_node
  global_set : variable_set
  env_overrides : Bool
  deriving DecidableEq, Repr

/-- The full chain as seen by `lookup_variable`, terminating at the
global node. -/
def fullchain (w : world) : List setlist_node :=
  w.locals ++ [⟨w.global_set, false, true⟩]

/-- `current_variable_set_list->set`. -/
def current_set (w : world) : variable_set :=
  match w.locals with
  | [] => w.global_set
  | n :: _ => n.set

/-- The tail of `do_variable_definition`: store through
`define_variable_in_set` into the global set (scope `s_global`) or the
current set, then set the `append`/`conditional` flags on the stored
binding (the C code mutates the struct sitting in the hash table). -/
def world_define (w : world) (scope : variable_scope)
    (name value : String) (origin : variable_origin)
    (recursive append conditional : Bool) : Variable × world :=
  if scope == s_global || w.locals.isEmpty then
    let p := define_variable_in_set w.env_overrides name value origin
               recursive w.global_set
    let v' := { p.1 with append := append, conditional := conditional }
    (v', { w with global_set := vs_store name v' p.2 })
  else
    match w.locals with
    | [] => (⟨name, value, origin, recursive, append, conditional,
              v_default, exportable_name name.data, false, false⟩, w)
    | n :: ns =>
        let p := define_variable_in_set w.env_overrides name value origin
                   recursive n.set
        let v' := { p.1 with append := append, conditional := conditional }
        (v', { w with locals := { n with set := vs_store name v' p.2 } :: ns })

/-- The `$`-doubling loop of the `f_expand` (`:::=`) branch of
`do_variable_definition`. -/
def escape_dollars : List Char → List Char
  | [] => []
  | c :: rest =>
      if c == '$' then '$' :: c :: escape_dollars rest
      else c :: escape_dollars rest

/-- `strstr`: index of the first occurrence of `pat`. -/
def strstr_idx (pat : List Char) : List Char → Option Nat
  | [] => if pat.isEmpty then some 0 else none
  | c :: rest =>
      if pat.isPrefixOf (c :: rest) then some 0
      else (strstr_idx pat rest).map (· + 1)

/-- `MAKEFLAGS_NAME` (from `makeint.h`): the designated
process-flags-propagation variable. -/
def MAKEFLAGS_NAME : String := "MAKEFLAGS"

/-- Modelled from the spec: `shell_result` wraps `func_shell_base`
(defined outside the provided sources).  Per the spec, the command's
captured stdout has at most one trailing line terminator stripped, and
a failing subprocess yields empty text, not an error.  `runner` is the
external synchronous subprocess runner (`none` = failure). -/
def shell_result (runner : String → Option String) (p : String) : String :=
  match runner p with
  | some out =>
      if out.data.getLast? == some '\n' then String.mk out.data.dropLast
      else out
  | none => ""

/-- `do_variable_definition`: flavor transformation and store.
`resolve` is the external reference evaluator
(`allocated_expand_string`).  The DOS/W32 `SHELL` special case is
platform code compiled out on the spec's platform model and is not
represented; `set_special_var` (which per the spec re-derives flag
state from a synthetic variable's new value but does not alter the
stored binding) is likewise not represented. -/
def do_variable_definition (resolve : String → String)
    (runner : String → Option String) (w : world)
    (varname value : String) (origin : variable_origin)
    (flavor : variable_flavor) (conditional : Bool)
    (scope : variable_scope) : Variable × world :=
  match (if conditional then lookup_variable varname (fullchain w)
         else none) with
  | some v => (v, w)
  | none =>
    -- `.inl (newval, recursive, append)` stores; `.inr v` is the
    -- `goto done` path returning the untouched existing binding.
    let step : (String × Bool × Bool) ⊕ Variable :=
      match flavor with
      | f_simple => .inl (resolve value, false, false)
      | f_expand =>
          .inl (String.mk (escape_dollars (resolve value).data), true, false)
      | f_shell => .inl (shell_result runner (resolve value), true, false)
      | f_recursive => .inl (value, true, false)
      | f_append | f_append_value =>
          let look : Option Variable × Bool × Bool :=
            if scope == s_global then
              (lookup_variable varname (fullchain w), false, false)
            else
              match lookup_variable_in_set varname (current_set w) with
              | none => (none, true, false)
              | some v =>
                  if scope == s_pattern
                     && (v.origin == o_env_override || v.origin == o_command)
                  then (some v, true, true)
                  else (some v, v.append, false)
          match look with
          | (none, app, _) => .inl (value, true, app)
          | (some _, app, true) => .inl (value, true, app)
          | (some v, app, false) =>
              let val := if v.recursive || flavor == f_append_value then value
                         else resolve value
              if val == "" then .inr v
              else
                let newval :=
                  if v.value == "" then val
                  else
                    match (if varname == MAKEFLAGS_NAME then
                             strstr_idx " -- ".data v.value.data
                           else none) with
                    | some i =>
                        String.mk (v.value.data.take i) ++ " " ++ val
                    | none => v.value ++ " " ++ val
                .inl (newval, v.recursive, app)
    match step with
    | .inr v => (v, w)
    | .inl (newval, recur, app) =>
        world_define w scope varname newval origin recur app conditional

/-! ## Pattern-specific variables -/

/-- `struct pattern_var`, keeping the data the index logic uses: the
pattern text split at its `%` stem (`target` = `pre ++ '%' :: suf`,
`len = strlen (target)`, `suffix` points just past the `%`).  `id` is
the allocation order, standing in for the struct's address; the
attached binding template plays no role in the index invariant. -/
structure pattern_var where
  id : Nat
  pre : List Char
  suf : List Char
  deriving DecidableEq, Repr

/-- `p->len`. -/
def pv_len (p : pattern_var) : Nat :=
  p.pre.length + 1 + p.suf.length

/-- The fallback insertion scan of `create_pattern_var`: insert before
the first entry whose pattern is strictly longer. -/
def insert_sorted (p : pattern_var) : List pattern_var → List pattern_var
  | [] => [p]
  | q :: rest =>
      if pv_len p < pv_len q then p :: q :: rest
      else q :: insert_sorted p rest

/-- The cached insertion of `create_pattern_var`: splice `p` right
behind the struct whose address (`id`) the `last_pattern_vars` cache
holds. -/
def insert_after_id (i : Nat) (p : pattern_var) :
    List pattern_var → List pattern_var
  | [] => []
  | q :: rest =>
      if q.id == i then q :: p :: rest
      else q :: insert_after_id i p rest

/-- The process-wide pattern registry: the `pattern_vars` list, the
`last_pattern_vars[256]` cache (length ↦ address of the last struct of
that size), and the allocation counter providing fresh `id`s. -/
structure pattern_var_state where
  pattern_vars : List pattern_var
  lastvars : Nat → Option Nat
  next_id : Nat

/-- The registry before any `create_pattern_var` call. -/
def pv_init : pattern_var_state :=
  ⟨[], fun _ => none, 0⟩

/-- `create_pattern_var`: allocate a struct and insert it — behind the
cached last struct of equal size when the cache has one, otherwise by
the scan — then refresh the cache for this size. -/
def create_pattern_var (st : pattern_var_state) (pre suf : List Char) :
    pattern_var_state :=
  let len := pre.length + 1 + suf.length
  let p : pattern_var := ⟨st.next_id, pre, suf⟩
  let pvs :=
    if st.pattern_vars.isEmpty then [p]
    else
      match (if len < 256 then st.lastvars len else none) with
      | some i => insert_after_id i p st.pattern_vars
      | none => insert_sorted p st.pattern_vars
  { pattern_vars := pvs
    lastvars := fun l => if l = len ∧ len < 256 then some p.id else st.lastvars l
    next_id := st.next_id + 1 }

/-- A whole sequence of `create_pattern_var` calls. -/
def create_many (st : pattern_var_state) :
    List (List Char × List Char) → pattern_var_state
  | [] => st
  | (pre, suf) :: rest => create_many (create_pattern_var st pre suf) rest

/-- The match test of `lookup_pattern_var`'s loop body: the pattern
cannot be longer than the target, the literal text before the stem is
an initial segment of the target, and the literal text after the stem
is a final segment (the middle chars are the stem, of length
`targlen - p->len + 1 ≥ 1`). -/
def pv_matches (p : pattern_var) (target : List Char) : Bool :=
  decide (pv_len p ≤ target.length)
    && p.pre.isPrefixOf target
    && p.suf.isSuffixOf target

/-- The `start` cursor of `lookup_pattern_var`: iteration resumes at
the struct behind the one with address `i`. -/
def after_id (i : Nat) : List pattern_var → List pattern_var
  | [] => []
  | q :: rest => if q.id == i then rest else after_id i rest

/-- `lookup_pattern_var`: walk forward from the cursor (or the list
head) and return the first entry matching the target. -/
def lookup_pattern_var (pvs : List pattern_var) (start : Option Nat)
    (target : List Char) : Option pattern_var :=
  (match start with
   | none => pvs
   | some i => after_id i pvs).find? (fun p => pv_matches p target)

/-- The intended order of the registry: ascending pattern length, and
within one length the original definition (allocation) order. -/
def pv_le (a b : pattern_var) : Prop :=
  pv_len a < pv_len b ∨ (pv_len a = pv_len b ∧ a.id < b.id)

/-- The registry invariant: the list is `pv_le`-ordered, ids are
distinct and below the allocation counter, and each
`last_pattern_vars` cache cell holds the id of the positionally last
entry of its length (when one exists). -/
def pv_inv (st : pattern_var_state) : Prop :=
  st.pattern_vars.Pairwise pv_le
  ∧ (st.pattern_vars.map pattern_var.id).Nodup
  ∧ (∀ p ∈ st.pattern_vars, p.id < st.next_id)
  ∧ ∀ l, l < 256 →
      st.lastvars l
        = Option.map pattern_var.id
            ((st.pattern_vars.filter (fun p => pv_len p == l)).getLast?)

/-! ## The modelled reference evaluator -/

/-- Modelled from the spec: the external reference evaluator
`resolve(text, scope_context)` (`allocated_expand_string`, which lives
outside the provided sources).  A doubled marker `$$` yields one
literal `$`; `$c` substitutes the text bound to the one-character name
`c` (`env`); every other character is copied verbatim.  (The
parenthesized `$(...)` reference form adds nothing to the claims about
escaping and is not represented.) -/
def resolve_model (env : Char → String) : List Char → List Char
  | [] => []
  | c :: rest =>
      if c == '$' then
        match rest with
        | [] => []
        | d :: rest' =>
            if d == '$' then '$' :: resolve_model env rest'
            else (env d).data ++ resolve_model env rest'
      else c :: resolve_model env rest

/-! ## The definition-line parser -/

/-- `ISBLANK`. -/
def c_isblank (c : Char) : Bool :=
  c == ' ' || c == '\t'

/-- The paren/brace-counting loop inside the reference skipper: consume
until the balanced closing delimiter (or the end of the line). -/
def skip_balanced (op cl : Char) (count : Nat) :
    List Char → List Char
  | [] => []
  | x :: rest =>
      if x == cl then
        if count == 0 then rest else skip_balanced op cl (count - 1) rest
      else if x == op then skip_balanced op cl (count + 1) rest
      else skip_balanced op cl count rest

/-- Modelled from the spec: `skip_reference` (declared outside the
provided sources) advances past one variable reference after its `$`:
a `$(...)`/`${...}` reference is skipped through its balanced closing
delimiter; otherwise one character (as in `$x` or `$$`) is consumed. -/
def skip_reference (p : List Char) : List Char :=
  match p with
  | [] => []
  | c :: rest =>
      if c == '(' then skip_balanced '(' ')' 0 rest
      else if c == '{' then skip_balanced '{' '}' 0 rest
      else rest

/-- The result fields of `parse_variable_definition` (`name` is the
text before the operator, `value` the text after it with leading
blanks dropped). -/
structure parsed_var where
  name : List Char
  flavor : variable_flavor
  conditional : Bool
  value : List Char
  deriving DecidableEq, Repr

/-- One step outcome of the parser loop: a final answer, or the state
for the next iteration. -/
inductive tok_res where
  | done (r : Option parsed_var)
  | next (p : List Char) (acc : List Char) (frozen : Option (List Char))
      (conditional : Bool)
  deriving DecidableEq, Repr

/-- The operator dispatch of `parse_variable_definition`'s loop body,
`c` being the current character and `p'` the rest: recognize `=`,
`:=`/`::=`/`:::=`, `+=`, `!=`; any other character falls to the
`other:` label, which fails if a blank run was already seen
(`end` set, carried here as `frozen`), skips a reference after `$`,
and resets the pending `?` flag.  `acc` accumulates the name text,
`start` is the name end used when no blank was seen. -/
def handle_op (c : Char) (p' : List Char) (acc start : List Char)
    (frozen : Option (List Char)) (conditional : Bool) : tok_res :=
  let fin (fl : variable_flavor) (rest : List Char) : tok_res :=
    .done (some ⟨frozen.getD start, fl, conditional,
                 rest.dropWhile c_isblank⟩)
  if c == '=' then fin f_recursive p'
  else if c == ':' then
    match p' with
    | '=' :: r => fin f_simple r
    | ':' :: '=' :: r => fin f_simple r
    | ':' :: ':' :: '=' :: r => fin f_expand r
    | _ => .done none
  else if p'.head? == some '=' && (c == '+' || c == '!') then
    fin (if c == '+' then f_append else f_shell) p'.tail
  else if frozen.isSome then .done none
  else if c == '$' then
    let rest := skip_reference p'
    .next rest (acc ++ c :: p'.take (p'.length - rest.length)) frozen false
  else .next p' (acc ++ [c]) frozen false

/-- A token, with the optional `?` of a conditional assignment
consumed first (`c = *p++` after seeing `?`). -/
def handle_token (c : Char) (p' : List Char) (acc : List Char)
    (frozen : Option (List Char)) (conditional : Bool) : tok_res :=
  if c == '?' then
    match p' with
    | [] => .done none
    | d :: p'' => handle_op d p'' (acc ++ ['?']) acc frozen true
  else handle_op c p' acc acc frozen conditional

/-- The main loop of `parse_variable_definition`: stop on a comment or
the end of the line; a blank run freezes the name (a second one makes
the line "not a definition"); otherwise dispatch on the token.  `fuel`
only bounds the iteration count for the recursion: every iteration
consumes at least one character, so the `length + 1` supplied by
`parse_variable_definition` never runs out. -/
def parse_vardef_loop (fuel : Nat) (p : List Char) (acc : List Char)
    (frozen : Option (List Char)) (conditional : Bool) :
    Option parsed_var :=
  match fuel with
  | 0 => none
  | fuel + 1 =>
      match p with
      | [] => none
      | c :: p' =>
          if c == '#' then none
          else if c_isblank c then
            if frozen.isSome then none
            else parse_vardef_loop fuel (p'.dropWhile c_isblank) acc
                   (some acc) conditional
          else
            match handle_token c p' acc frozen conditional with
            | .done r => r
            | .next q a f b => parse_vardef_loop fuel q a f b

/-- `parse_variable_definition`: `none` is the C function's NULL,
"this line is not a variable definition". -/
def parse_variable_definition (line : List Char) : Option parsed_var :=
  parse_vardef_loop (line.length + 1) (line.dropWhile c_isblank) [] none
    false

/-- The outcomes of `assign_variable_definition`. -/
inductive assign_result where
  | not_a_definition
  | fatal_empty_name
  | defined (v : parsed_var)
  deriving DecidableEq, Repr

/-- `assign_variable_definition`: parse, then expand the name through
the external evaluator; an empty expanded name is the fatal
`empty variable name` error. -/
def assign_variable_definition (resolve : String → String)
    (line : List Char) : assign_result :=
  match parse_variable_definition line with
  | none => .not_a_definition
  | some pv =>
      let nm := resolve (String.mk pv.name)
      if nm == "" then .fatal_empty_name
      else .defined { pv with name := nm.data }

/-! ## The environment projector -/

/-- `MAKELEVEL_NAME` (from `makeint.h`). -/
def MAKELEVEL_NAME : String := "MAKELEVEL"

/-- `JOBSERVER_AUTH_OPT` (from `os.h`). -/
def JOBSERVER_AUTH_OPT : String := "jobserver-auth"

/-- `strstr (s, pat) != NULL`. -/
def str_contains (s pat : String) : Bool :=
  (strstr_idx pat.data s.data).isSome

/-- `should_export`: the export filter, `export_all` being the global
`export_all_variables` flag. -/
def should_export (export_all : Bool) (v : Variable) : Bool :=
  match v.export_status with
  | v_export => true
  | v_noexport => false
  | v_ifset => !(v.origin == o_default)
  | v_default =>
      if v.origin == o_default || v.origin == o_automatic then false
      else if !v.exportable then false
      else if !export_all && !(v.origin == o_command)
              && !(v.origin == o_env) && !(v.origin == o_env_override)
      then false
      else true

/-- One node of the chain `target_environment` walks; `isglobal` is the
pointer test `set == &global_variable_set`. -/
structure env_node where
  set : variable_set
  isglobal : Bool
  deriving DecidableEq, Repr

/-- One variable of the first pass: skip a private binding coming from
a non-innermost scope; a name not yet in the table is added (a global
binding only if it passes the export filter, a target-specific one
unconditionally); a name already present with still-undecided export
status inherits the later (less specific) binding's status. -/
def te_add_var (export_all islocal isglobal : Bool)
    (table : List Variable) (v : Variable) : List Variable :=
  if !islocal && v.private_var then table
  else
    match table.find? (fun w => w.name == v.name) with
    | none =>
        if !isglobal || should_export export_all v then table ++ [v]
        else table
    | some w =>
        if w.export_status == v_default then
          replace_first (fun x => x.name == v.name)
            { w with export_status := v.export_status } table
        else table

/-- The first pass over one set. -/
def te_add_set (export_all islocal : Bool) (table : List Variable)
    (n : env_node) : List Variable :=
  n.set.vars.foldl (te_add_var export_all islocal n.isglobal) table

/-- The first pass of `target_environment`: walk the chain from most
specific to least specific, accumulating into the name-keyed table
(the first occurrence of a name wins). -/
def te_accumulate (export_all : Bool) : List env_node → List Variable
  | [] => []
  | n :: rest => rest.foldl (te_add_set export_all false)
                   (te_add_set export_all true [] n)

/-- The ambient inputs of `target_environment` that are external to the
chain: the reference evaluator closed over the file
(`recursively_expand_for_file`), the `export_all_variables` flag, the
value of `shell_var` (`none` when the environment supplied no SHELL),
`makelevel`, and the jobserver invalidation text
(`jobserver_get_invalid_auth ()`, `none` when absent). -/
structure te_params where
  resolve_var : Variable → String
  export_all : Bool
  shell_value : Option String
  makelevel : Nat
  invalid : Option String

/-- The running flags of the output loop. -/
structure te_flags where
  added_SHELL : Bool
  found_makelevel : Bool
  found_makeflags : Bool
  found_mflags : Bool
  invalid : Option String
  deriving DecidableEq, Repr

/-- The output loop body for one accumulated variable: apply the final
export test; re-expand a deferred value unless it came from the
environment (`MAKEFLAGS` is always re-expanded); then the by-name
special cases — `SHELL` bookkeeping, `MAKELEVEL` incremented, and,
when jobserver invalidation is pending, the `MAKEFLAGS`/`MFLAGS`
insertion placed before any trailing `" -- "` override segment. -/
def te_emit_var (P : te_params) (st : te_flags) (v : Variable) :
    te_flags × Option (String × String) :=
  if !should_export P.export_all v then (st, none)
  else
    let value :=
      if v.recursive
         && ((!(v.origin == o_env) && !(v.origin == o_env_override))
             || v.name == MAKEFLAGS_NAME)
      then P.resolve_var v else v.value
    if !st.added_SHELL && v.name == "SHELL" then
      ({ st with added_SHELL := true }, some (v.name, value))
    else if !st.found_makelevel && v.name == MAKELEVEL_NAME then
      ({ st with found_makelevel := true },
       some (v.name, toString (P.makelevel + 1)))
    else
      match st.invalid with
      | none => (st, some (v.name, value))
      | some inv =>
          if !st.found_makeflags && v.name == MAKEFLAGS_NAME then
            let st' := { st with found_makeflags := true }
            if !str_contains value (" --" ++ JOBSERVER_AUTH_OPT ++ "=")
            then (st', some (v.name, value))
            else
              let value' :=
                match strstr_idx " -- ".data value.data with
                | none => value ++ inv
                | some i =>
                    String.mk (value.data.take i) ++ inv
                      ++ String.mk (value.data.drop i)
              ({ st' with invalid := if st'.found_mflags then none
                                     else st'.invalid },
               some (v.name, value'))
          else if !st.found_mflags && v.name == "MFLAGS" then
            let st' := { st with found_mflags := true }
            if !str_contains value (" --" ++ JOBSERVER_AUTH_OPT ++ "=")
            then (st', some (v.name, value))
            else if !(v.origin == o_env) then (st', some (v.name, value))
            else
              ({ st' with invalid := if st'.found_makeflags then none
                                     else st'.invalid },
               some (v.name, value ++ inv))
          else (st, some (v.name, value))

/-- One output-loop step: run the body on the flag state, append the
produced entry (if any). -/
def te_step (P : te_params) (acc : te_flags × List (String × String))
    (v : Variable) : te_flags × List (String × String) :=
  let s := te_emit_var P acc.1 v
  (s.1, acc.2 ++ s.2.toList)

/-- The output loop over the accumulated table, followed by the
fallback entries: `SHELL` from `shell_var` if no chain binding supplied
it, and an incremented `MAKELEVEL` if none was found. -/
def te_emit (P : te_params) (table : List Variable) :
    List (String × String) :=
  let init : te_flags :=
    ⟨P.shell_value.isNone, false, false, false, P.invalid⟩
  let r := table.foldl (te_step P) (init, [])
  r.2 ++ (if !r.1.added_SHELL then [("SHELL", P.shell_value.getD "")]
          else [])
      ++ (if !r.1.found_makelevel then
            [(MAKELEVEL_NAME, toString (P.makelevel + 1))]
          else [])

/-- `target_environment` producing the `name=value` pair list (the C
code's `concat (3, v->name, "=", value)` strings, kept as pairs). -/
def target_environment_pairs (P : te_params) (chain : List env_node) :
    List (String × String) :=
  te_emit P (te_accumulate P.export_all chain)

/-- `target_environment`: the final `name=value` text list (the
terminating NULL sentinel of the C array is the end of the list). -/
def target_environment (P : te_params) (chain : List env_node) :
    List String :=
  (target_environment_pairs P chain).map (fun e => e.1 ++ "=" ++ e.2)

/-! ## Association-list facts about the hash-table model -/

theorem replace_first_of_find? {α : Type} {p : α → Bool} {a : α} :
    ∀ {l : List α}, l.find? p = some a → replace_first p a l = l := by
  intro l h
  induction l with
  | nil => simp [replace_first]
  | cons x xs ih =>
      cases hx : p x with
      | true =>
          simp only [List.find?, hx] at h
          cases h
          simp [replace_first, hx]
      | false =>
          simp only [List.find?, hx] at h
          simp [replace_first, hx, ih h]

theorem find?_replace_first {α : Type} {p : α → Bool} {a : α}
    (ha : p a = true) :
    ∀ {l : List α}, (l.find? p).isSome →
      (replace_first p a l).find? p = some a := by
  intro l h
  induction l with
  | nil => simp [List.find?] at h
  | cons x xs ih =>
      cases hx : p x with
      | true => simp [replace_first, hx, List.find?, ha]
      | false =>
          simp only [List.find?, hx] at h
          simp [replace_first, hx, List.find?, ih h]

theorem find?_remove_first_none {α β : Type} [BEq β] [LawfulBEq β]
    (f : α → β) (k : β) :
    ∀ {l : List α}, (l.map f).Nodup →
      (remove_first (fun x => f x == k) l).find?
        (fun x => f x == k) = none := by
  intro l h
  induction l with
  | nil => simp [remove_first, List.find?]
  | cons x xs ih =>
      simp only [List.map_cons, List.nodup_cons] at h
      cases hx : (f x == k) with
      | true =>
          simp only [remove_first, hx]
          refine List.find?_eq_none.mpr ?_
          intro y hy
          have hk : f x = k := eq_of_beq hx
          have : f y ≠ k := by
            intro he
            exact h.1 (by simpa [he, hk] using List.mem_map_of_mem f hy)
          simpa using this
      | false =>
          simp only [remove_first, hx]
          simp [List.find?, hx, ih h.2]

/-! ## C1: the origin-precedence gate -/

/-- C1.  Origin-precedence gate: with a binding named `X` (origin
`old.origin`) already in the set, a `define_variable_in_set` or
`undefine_variable_in_set` with incoming origin `o_new` takes effect —
value, origin and deferredness are updated, resp. the binding is
deleted — if and only if `o_new` ranks at least as strong as the
existing origin in the ladder; when it ranks lower, the call is a
silent no-op that returns the existing binding and leaves the set
unchanged.  (`env_overrides` off; the `-e` promotions are claim C10.) -/
theorem claim_C1_precedence_gate (set : variable_set) (X newval : String)
    (o_new : variable_origin) (recflag : Bool) (old : Variable)
    (hfind : lookup_variable_in_set X set = some old)
    (hnodup : (set.vars.map Variable.name).Nodup) :
    (originRank old.origin ≤ originRank o_new →
        (define_variable_in_set false X newval o_new recflag set).1
            = { old with value := newval, origin := o_new,
                         recursive := recflag }
        ∧ lookup_variable_in_set X
            (define_variable_in_set false X newval o_new recflag set).2
          = some (define_variable_in_set false X newval o_new recflag set).1
        ∧ lookup_variable_in_set X
            (undefine_variable_in_set false X o_new set) = none)
    ∧ (¬ originRank old.origin ≤ originRank o_new →
        define_variable_in_set false X newval o_new recflag set
          = (old, set)
        ∧ undefine_variable_in_set false X o_new set = set) := by
  have hfind' : set.vars.find? (fun w => w.name == X) = some old := hfind
  have hname : (old.name == X) = true := by
    have := List.find?_some hfind'
    simpa using this
  constructor
  · intro hrank
    have hd : define_variable_in_set false X newval o_new recflag set
        = ({ old with value := newval, origin := o_new, recursive := recflag }, vs_store X { old with value := newval, origin := o_new, recursive := recflag } set) := by
      simp only [define_variable_in_set, hfind]
      simp [hrank]
    refine ⟨by rw [hd], ?_, ?_⟩
    · rw [hd]
      exact find?_replace_first (by simpa using hname) (by simp [hfind'])
    · simp only [undefine_variable_in_set, hfind]
      simp only [Bool.false_and, Bool.false_eq_true, if_false]
      simp only [hrank, if_pos]
      exact find?_remove_first_none Variable.name X hnodup
  · intro hrank
    have hstore : vs_store X old set = set := by
      show variable_set.mk (replace_first (fun w => w.name == X) old set.vars) = set
      rw [replace_first_of_find? hfind']
    constructor
    · simp only [define_variable_in_set, hfind]
      simp [hrank, hstore]
    · simp only [undefine_variable_in_set, hfind]
      simp [hrank, hstore]

/-- Witness for C1 at a concrete input: a `default`-origin binding is
overwritten by a `makefile`-origin define, and a `command`-origin
binding silently survives a `makefile`-origin define. -/
theorem claim_C1_precedence_gate_witness :
    (define_variable_in_set false "A" "y" variable_origin.o_file false
        ⟨[⟨"A", "x", variable_origin.o_default, false, false, false,
           variable_export.v_default, true, false, false⟩]⟩).1.value = "y"
    ∧ define_variable_in_set false "A" "y" variable_origin.o_file false
        ⟨[⟨"A", "x", variable_origin.o_command, false, false, false,
           variable_export.v_default, true, false, false⟩]⟩
      = (⟨"A", "x", variable_origin.o_command, false, false, false,
          variable_export.v_default, true, false, false⟩,
         ⟨[⟨"A", "x", variable_origin.o_command, false, false, false,
            variable_export.v_default, true, false, false⟩]⟩) := by
  constructor
  · have h := claim_C1_precedence_gate
      ⟨[⟨"A", "x", variable_origin.o_default, false, false, false,
         variable_export.v_default, true, false, false⟩]⟩
      "A" "y" variable_origin.o_file false
      ⟨"A", "x", variable_origin.o_default, false, false, false,
        variable_export.v_default, true, false, false⟩
      (by decide) (by decide)
    rw [(h.1 (by decide)).1]
  · have h := claim_C1_precedence_gate
      ⟨[⟨"A", "x", variable_origin.o_command, false, false, false,
         variable_export.v_default, true, false, false⟩]⟩
      "A" "y" variable_origin.o_file false
      ⟨"A", "x", variable_origin.o_command, false, false, false,
        variable_export.v_default, true, false, false⟩
      (by decide) (by decide)
    exact (h.2 (by decide)).1

/-! ## C10: implicit `-e` promotion of environment origins -/

/-- Shape of `define_variable_in_set` when a binding is found: the
incoming and in-place origin promotions, then the precedence gate. -/
theorem define_found (eo : Bool) (X newval : String)
    (o_new : variable_origin) (recflag : Bool) (set : variable_set)
    (old : Variable)
    (hfind : lookup_variable_in_set X set = some old) :
    define_variable_in_set eo X newval o_new recflag set =
      (let pold := if eo && (old.origin == o_env) then { old with origin := o_env_override } else old
       let o2 := if eo && (o_new == o_env) then o_env_override else o_new
       if originRank pold.origin ≤ originRank o2 then
         ({ pold with value := newval, origin := o2, recursive := recflag }, vs_store X { pold with value := newval, origin := o2, recursive := recflag } set)
       else (pold, vs_store X pold set)) := by
  simp only [define_variable_in_set, hfind]

/-- Shape of `undefine_variable_in_set` when a binding is found. -/
theorem undefine_found (eo : Bool) (X : String)
    (o_new : variable_origin) (set : variable_set) (old : Variable)
    (hfind : lookup_variable_in_set X set = some old) :
    undefine_variable_in_set eo X o_new set =
      (let pold := if eo && (old.origin == o_env) then { old with origin := o_env_override } else old
       let o2 := if eo && (o_new == o_env) then o_env_override else o_new
       if originRank pold.origin ≤ originRank o2 then
         variable_set.mk (remove_first (fun w => w.name == X) set.vars)
       else vs_store X pold set) := by
  simp only [undefine_variable_in_set, hfind]

/-- Storing a binding named `X` over the slot of an existing one makes
it the lookup result. -/
theorem lookup_vs_store (X : String) (w : Variable) (set : variable_set)
    (hw : (w.name == X) = true)
    (hsome : (set.vars.find? (fun v => v.name == X)).isSome) :
    lookup_variable_in_set X (vs_store X w set) = some w :=
  find?_replace_first (p := fun (v : Variable) => v.name == X) hw hsome

/-- C10.  With the `env_overrides` (`-e`) flag set: a define or
undefine arriving with `o_env` origin behaves exactly as if it arrived
with `o_env_override`; an environment-origin write to an
environment-origin binding always takes effect (value updated, origin
recorded as `o_env_override`); an environment-origin undefine deletes
such a binding; and whatever origin the call carries, the binding left
behind (if any) never has plain `o_env` origin — the existing binding
is promoted in place. -/
theorem claim_C10_env_override_promotion (set : variable_set)
    (X newval : String) (recflag : Bool) (o_new : variable_origin)
    (old : Variable)
    (hfind : lookup_variable_in_set X set = some old)
    (hnodup : (set.vars.map Variable.name).Nodup)
    (henv : old.origin = o_env) :
    define_variable_in_set true X newval o_env recflag set
      = define_variable_in_set true X newval o_env_override recflag set
    ∧ undefine_variable_in_set true X o_env set
      = undefine_variable_in_set true X o_env_override set
    ∧ (define_variable_in_set true X newval o_env recflag set).1.value
        = newval
    ∧ (define_variable_in_set true X newval o_env recflag set).1.origin
        = o_env_override
    ∧ (∀ v', lookup_variable_in_set X
          (define_variable_in_set true X newval o_new recflag set).2
            = some v' → v'.origin ≠ o_env)
    ∧ lookup_variable_in_set X
        (undefine_variable_in_set true X o_env set) = none
    ∧ (∀ v', lookup_variable_in_set X
          (undefine_variable_in_set true X o_new set) = some v' →
            v'.origin ≠ o_env) := by
  have hfind' : set.vars.find? (fun w => w.name == X) = some old := hfind
  have hname : (old.name == X) = true := by
    have := List.find?_some hfind'
    simpa using this
  have hsome : (set.vars.find? (fun w => w.name == X)).isSome := by
    simp [hfind']
  refine ⟨rfl, rfl, ?_, ?_, ?_, ?_, ?_⟩
  · rw [define_found true X newval o_env recflag set old hfind]
    simp [henv, originRank]
  · rw [define_found true X newval o_env recflag set old hfind]
    simp [henv, originRank]
  · intro v' hv'
    rw [define_found true X newval o_new recflag set old hfind] at hv'
    simp only [henv] at hv'
    by_cases ho : o_new = o_env
    · subst ho
      simp [originRank] at hv'
      rw [lookup_vs_store X _ set (by simpa using hname) hsome] at hv'
      cases hv'
      simp
    · simp [ho, originRank] at hv'
      split at hv'
      · rw [lookup_vs_store X _ set (by simpa using hname) hsome] at hv'
        cases hv'
        simpa using ho
      · rw [lookup_vs_store X _ set (by simpa using hname) hsome] at hv'
        cases hv'
        simp
  · rw [undefine_found true X o_env set old hfind]
    simp only [henv]
    simp [originRank]
    exact find?_remove_first_none Variable.name X hnodup
  · intro v' hv'
    rw [undefine_found true X o_new set old hfind] at hv'
    simp only [henv] at hv'
    by_cases ho : o_new = o_env
    · subst ho
      simp [originRank] at hv'
      have hrm : lookup_variable_in_set X (variable_set.mk (remove_first (fun w => w.name == X) set.vars)) = none :=
        find?_remove_first_none Variable.name X hnodup
      rw [hrm] at hv'
      cases hv'
    · simp [ho, originRank] at hv'
      split at hv'
      · have hrm : lookup_variable_in_set X (variable_set.mk (remove_first (fun w => w.name == X) set.vars)) = none :=
          find?_remove_first_none Variable.name X hnodup
        rw [hrm] at hv'
        cases hv'
      · rw [lookup_vs_store X _ set (by simpa using hname) hsome] at hv'
        cases hv'
        simp

/-- Witness for C10 at a concrete input: under `-e`, an `o_env` define
onto an `o_env` binding updates it and records `o_env_override`, and an
`o_env` undefine deletes it. -/
theorem claim_C10_env_override_promotion_witness :
    (define_variable_in_set true "E" "y" variable_origin.o_env false
        ⟨[⟨"E", "x", variable_origin.o_env, false, false, false,
           variable_export.v_default, true, false, false⟩]⟩).1.value = "y"
    ∧ (define_variable_in_set true "E" "y" variable_origin.o_env false
        ⟨[⟨"E", "x", variable_origin.o_env, false, false, false,
           variable_export.v_default, true, false, false⟩]⟩).1.origin
        = variable_origin.o_env_override
    ∧ lookup_variable_in_set "E"
        (undefine_variable_in_set true "E" variable_origin.o_env
          ⟨[⟨"E", "x", variable_origin.o_env, false, false, false,
             variable_export.v_default, true, false, false⟩]⟩) = none := by
  have h := claim_C10_env_override_promotion
    ⟨[⟨"E", "x", variable_origin.o_env, false, false, false,
       variable_export.v_default, true, false, false⟩]⟩
    "E" "y" false variable_origin.o_default
    ⟨"E", "x", variable_origin.o_env, false, false, false,
      variable_export.v_default, true, false, false⟩
    (by decide) (by decide) rfl
  exact ⟨h.2.2.1, h.2.2.2.1, h.2.2.2.2.2.1⟩


/-! ## C9: the pop precondition -/

/-- C9.  Popping a chain whose current node has no successor fails the
checked precondition (the fatal `assert`, modelled as `none`) — and
only then; under the precondition that a successor exists the failure
branch is unreachable, and a pop immediately following a push restores
the previous chain exactly and frees exactly the one (fresh, empty)
scope that the push allocated — in the global-node case via the
contents swap, in the ordinary case by unlinking the pushed node.
(`hg`: the statically initialized `global_setlist` carries
`next_is_parent = 0`.) -/
theorem claim_C9_pop_precondition (st : scope_chain)
    (hg : st.top.is_global = true → st.top.next_is_parent = false) :
    (pop_variable_scope st = none ↔ st.rest = [])
    ∧ pop_variable_scope (push_new_variable_scope st)
        = some (st, empty_set) := by
  constructor
  · cases h : st.rest with
    | nil => simp [pop_variable_scope, h]
    | cons s rest' =>
        simp only [pop_variable_scope, h]
        constructor
        · intro hc
          by_cases hb : st.top.is_global = true <;> simp [hb] at hc
        · intro hc
          cases hc
  · obtain ⟨⟨ts, tp, tg⟩, r⟩ := st
    by_cases hb : tg = true
    · have hp : tp = false := hg hb
      subst hb
      subst hp
      simp [push_new_variable_scope, pop_variable_scope]
    · simp [push_new_variable_scope, pop_variable_scope, hb]

/-- Witness for C9 at a concrete input: the chain holding only the
global node refuses to pop, and pops back to itself after a push. -/
theorem claim_C9_pop_precondition_witness :
    (pop_variable_scope ⟨⟨⟨[]⟩, false, true⟩, []⟩ = none
      ↔ ([] : List setlist_node) = [])
    ∧ pop_variable_scope (push_new_variable_scope ⟨⟨⟨[]⟩, false, true⟩, []⟩)
        = some (⟨⟨⟨[]⟩, false, true⟩, []⟩, empty_set) :=
  claim_C9_pop_precondition ⟨⟨⟨[]⟩, false, true⟩, []⟩ (fun _ => rfl)


/-! ## C5 and C6: the `:::=` and `!=` flavors -/

/-- A `do_variable_definition` into the global scope for a name with no
existing global binding stores a fresh binding carrying exactly the
computed value and flags. -/
theorem world_define_global_fresh (w : world) (X newval : String)
    (origin : variable_origin) (recur app cond : Bool)
    (hfresh : lookup_variable_in_set X w.global_set = none) :
    (world_define w s_global X newval origin recur app cond).1
      = { name := X, value := newval,
          origin := if w.env_overrides && (origin == o_env) then o_env_override else origin,
          recursive := recur, append := app, conditional := cond,
          export_status := v_default,
          exportable := exportable_name X.data,
          private_var := false, special := false } := by
  simp only [world_define]
  simp only [beq_self_eq_true, Bool.true_or, if_true]
  simp only [define_variable_in_set, hfresh]

/-- Resolving the `$`-doubled form of any text reproduces that text
unchanged. -/
theorem resolve_model_escape_dollars (env : Char → String) :
    ∀ l : List Char, resolve_model env (escape_dollars l) = l := by
  intro l
  induction l with
  | nil => rfl
  | cons c rest ih =>
      by_cases hc : c = '$'
      · subst hc
        simp [escape_dollars, resolve_model, ih]
      · have h2 : resolve_model env (c :: escape_dollars rest)
            = c :: resolve_model env (escape_dollars rest) := by
          rw [resolve_model.eq_def]
          simp [hc]
        simp [escape_dollars, hc, h2, ih]

/-- C5.  Escaped-immediate (`:::=`) round trip: the stored value is the
immediate resolution of the input with every `$` doubled, and resolving
the stored value once (the later deferred re-resolution) yields exactly
the value an immediate (`:=`) definition of the same input would have
stored; the binding itself is marked deferred. -/
theorem claim_C5_escaped_immediate (env : Char → String)
    (runner : String → Option String) (w : world) (X value : String)
    (origin : variable_origin)
    (hfresh : lookup_variable_in_set X w.global_set = none) :
    ((do_variable_definition (fun s => String.mk (resolve_model env s.data))
        runner w X value origin f_expand false s_global).1.value
      = String.mk (escape_dollars (resolve_model env value.data)))
    ∧ String.mk (resolve_model env
        ((do_variable_definition (fun s => String.mk (resolve_model env s.data))
            runner w X value origin f_expand false s_global).1.value).data)
      = (do_variable_definition (fun s => String.mk (resolve_model env s.data))
          runner w X value origin f_simple false s_global).1.value
    ∧ (do_variable_definition (fun s => String.mk (resolve_model env s.data))
        runner w X value origin f_expand false s_global).1.recursive = true := by
  have hstep : do_variable_definition
      (fun s => String.mk (resolve_model env s.data)) runner w X value
      origin f_expand false s_global
      = world_define w s_global X
          (String.mk (escape_dollars (resolve_model env value.data)))
          origin true false false := rfl
  have hstep2 : do_variable_definition
      (fun s => String.mk (resolve_model env s.data)) runner w X value
      origin f_simple false s_global
      = world_define w s_global X
          (String.mk (resolve_model env value.data))
          origin false false false := rfl
  rw [hstep, hstep2,
    world_define_global_fresh w X _ origin true false false hfresh,
    world_define_global_fresh w X _ origin false false false hfresh]
  refine ⟨rfl, ?_, rfl⟩
  simp [resolve_model_escape_dollars]

/-- Witness for C5 at a concrete input: `E :::= a$$b` stores `a$$b`
(the resolution `a$b` re-escaped), whose one resolution is `a$b`. -/
theorem claim_C5_escaped_immediate_witness :
    (do_variable_definition
        (fun s => String.mk (resolve_model (fun _ => "V") s.data))
        (fun _ => none) ⟨[], ⟨[]⟩, false⟩ "E" "a$$b"
        variable_origin.o_file variable_flavor.f_expand false
        variable_scope.s_global).1.value = "a$$b" := by
  have h := claim_C5_escaped_immediate (fun _ => "V") (fun _ => none)
    ⟨[], ⟨[]⟩, false⟩ "E" "a$$b" variable_origin.o_file rfl
  rw [h.1]
  rfl

/-- C6.  Shell-derived (`!=`) flavor: the raw text is resolved, handed
to the one subprocess invocation, and the capture — stdout with at most
one trailing line terminator stripped — is stored as a deferred
(recursive) binding; a failing subprocess stores empty text (no error
is raised: the definition still completes and stores a binding). -/
theorem claim_C6_shell_flavor (resolve : String → String)
    (runner : String → Option String) (w : world) (X value : String)
    (origin : variable_origin)
    (hfresh : lookup_variable_in_set X w.global_set = none) :
    ((do_variable_definition resolve runner w X value origin f_shell
        false s_global).1.value = shell_result runner (resolve value))
    ∧ (do_variable_definition resolve runner w X value origin f_shell
        false s_global).1.recursive = true
    ∧ (runner (resolve value) = none →
        (do_variable_definition resolve runner w X value origin f_shell
          false s_global).1.value = "")
    ∧ (∀ out, runner (resolve value) = some out →
        (do_variable_definition resolve runner w X value origin f_shell
          false s_global).1.value
          = (if out.data.getLast? == some '\n'
             then String.mk out.data.dropLast else out)) := by
  have hstep : do_variable_definition resolve runner w X value origin
      f_shell false s_global
      = world_define w s_global X (shell_result runner (resolve value))
          origin true false false := rfl
  rw [hstep, world_define_global_fresh w X _ origin true false false hfresh]
  refine ⟨rfl, rfl, ?_, ?_⟩
  · intro hfail
    simp [shell_result, hfail]
  · intro out hout
    simp [shell_result, hout]

/-- Witness for C6 at a concrete input: a failing subprocess stores
empty text. -/
theorem claim_C6_shell_flavor_witness :
    (do_variable_definition (fun s => s) (fun _ => none)
        ⟨[], ⟨[]⟩, false⟩ "S" "cmd" variable_origin.o_file
        variable_flavor.f_shell false variable_scope.s_global).1.value
      = "" :=
  (claim_C6_shell_flavor (fun s => s) (fun _ => none) ⟨[], ⟨[]⟩, false⟩
    "S" "cmd" variable_origin.o_file rfl).2.2.1 rfl


/-! ## C2: the append-merge rule -/

/-- A one-node chain looks up directly in that node's set (no parent
boundary has been crossed, so privacy does not filter). -/
theorem lookup_variable_single (X : String) (g : variable_set) (nip gb : Bool) :
    lookup_variable X [⟨g, nip, gb⟩] = lookup_variable_in_set X g := by
  simp only [lookup_variable, lookup_variable_loop]
  cases h : lookup_variable_in_set X g <;> simp [h]

/-- Shape of the `+=` path of `do_variable_definition` in the global
scope: look through the whole chain; with no binding store the raw text
as a recursive binding; otherwise paste old and new (raw if the old
binding is recursive, resolved if not), except that an empty new text
leaves everything untouched, a binding with empty old value gets no
separator space, and `MAKEFLAGS` is cut at its `" -- "` separator. -/
theorem dvd_append_global (resolve : String → String)
    (runner : String → Option String) (w : world) (X value : String)
    (origin : variable_origin) :
    do_variable_definition resolve runner w X value origin f_append false
        s_global =
      (match lookup_variable X (fullchain w) with
       | none => world_define w s_global X value origin true false false
       | some v =>
           let val := if v.recursive then value else resolve value
           if val == "" then (v, w)
           else
             world_define w s_global X
               (if v.value == "" then val
                else
                  match (if X == MAKEFLAGS_NAME then
                           strstr_idx " -- ".data v.value.data
                         else none) with
                  | some i => String.mk (v.value.data.take i) ++ " " ++ val
                  | none => v.value ++ " " ++ val)
               origin v.recursive false false) := by
  cases hl : lookup_variable X (fullchain w) with
  | none =>
      simp only [do_variable_definition, hl]
      simp
  | some v =>
      simp only [do_variable_definition, hl]
      by_cases hr : v.recursive = true
      · by_cases hz : value = "" <;> simp [hr, hz]
      · by_cases hz : resolve value = "" <;> simp [hr, hz]

/-- A global-scope store over an existing binding whose origin the
incoming one dominates updates value/origin/deferredness in place
(`env_overrides` off). -/
theorem world_define_global_update (w : world) (X newval : String)
    (origin : variable_origin) (recur app cond : Bool) (old : Variable)
    (heo : w.env_overrides = false)
    (hfind : lookup_variable_in_set X w.global_set = some old)
    (hrank : originRank old.origin ≤ originRank origin) :
    (world_define w s_global X newval origin recur app cond).1
      = { old with value := newval, origin := origin, recursive := recur, append := app, conditional := cond } := by
  simp only [world_define]
  simp only [beq_self_eq_true, Bool.true_or, if_true]
  rw [define_found w.env_overrides X newval origin recur w.global_set old hfind]
  simp [heo, hrank]


/-- Counterexample for C2 as stated: `X = a` (deferred) then
`X += ""`.  The claim's merge rule for a deferred binding prescribes
the value `old ++ " " ++ new = "a "`, but the code checks the new text
for emptiness first (`if (!vallen) goto done`) and leaves the binding
entirely unchanged: the value stays `"a"`. -/
theorem claim_C2_append_merge_cex :
    (do_variable_definition (fun s => s) (fun _ => none)
        ⟨[], ⟨[⟨"X", "a", variable_origin.o_file, true, false, false,
               variable_export.v_default, true, false, false⟩]⟩, false⟩
        "X" "" variable_origin.o_file variable_flavor.f_append false
        variable_scope.s_global).1.value = "a"
    ∧ ("a" : String) ≠ "a" ++ " " ++ "" := by
  constructor
  · rfl
  · decide

/-- C2 as amended.  Append-merge of `+=` in the global scope, for a
name other than `MAKEFLAGS`, once the precedence gate passes: with no
visible binding the raw text is stored as a deferred binding; with a
deferred binding and nonempty new raw text the result is the old value
and the new raw text joined by one space (no space when the old value
is empty), still deferred; with an immediate binding and new text whose
resolution is nonempty the result is the old value and the resolved new
text joined by one space (no space when the old value is empty), still
immediate; when the effective new text (raw for deferred, resolved for
immediate) is empty, the binding and the whole state are left entirely
unchanged. -/
theorem claim_C2_append_merge (resolve : String → String)
    (runner : String → Option String) (w : world) (X newtext : String)
    (origin : variable_origin)
    (hloc : w.locals = []) (heo : w.env_overrides = false)
    (hmf : X ≠ MAKEFLAGS_NAME) :
    (lookup_variable_in_set X w.global_set = none →
       (do_variable_definition resolve runner w X newtext origin f_append
          false s_global).1.value = newtext
       ∧ (do_variable_definition resolve runner w X newtext origin
            f_append false s_global).1.recursive = true)
    ∧ (∀ old, lookup_variable_in_set X w.global_set = some old →
        originRank old.origin ≤ originRank origin →
        ((old.recursive = true →
           (newtext ≠ "" →
             (do_variable_definition resolve runner w X newtext origin
                f_append false s_global).1.value
               = (if old.value = "" then newtext
                  else old.value ++ " " ++ newtext)
             ∧ (do_variable_definition resolve runner w X newtext origin
                  f_append false s_global).1.recursive = true)
           ∧ (newtext = "" →
               do_variable_definition resolve runner w X newtext origin
                 f_append false s_global = (old, w)))
         ∧ (old.recursive = false →
           (resolve newtext ≠ "" →
             (do_variable_definition resolve runner w X newtext origin
                f_append false s_global).1.value
               = (if old.value = "" then resolve newtext
                  else old.value ++ " " ++ resolve newtext)
             ∧ (do_variable_definition resolve runner w X newtext origin
                  f_append false s_global).1.recursive = false)
           ∧ (resolve newtext = "" →
               do_variable_definition resolve runner w X newtext origin
                 f_append false s_global = (old, w))))) := by
  have hch : lookup_variable X (fullchain w)
      = lookup_variable_in_set X w.global_set := by
    rw [fullchain, hloc]
    simpa using lookup_variable_single X w.global_set false true
  constructor
  · intro hnone
    rw [dvd_append_global, hch, hnone]
    rw [world_define_global_fresh w X newtext origin true false false hnone]
    exact ⟨rfl, rfl⟩
  · intro old hfind hrank
    have hmf2 : (X == MAKEFLAGS_NAME) = false := by simpa using hmf
    refine ⟨fun hrec => ⟨fun hne => ?_, fun hz => ?_⟩,
            fun hrec => ⟨fun hne => ?_, fun hz => ?_⟩⟩
    · rw [dvd_append_global, hch, hfind]
      by_cases hov : old.value = ""
      · have h := world_define_global_update w X newtext origin true false
          false old heo hfind hrank
        simp [hrec, hne, hov, h]
      · have h := world_define_global_update w X
          (old.value ++ " " ++ newtext) origin true false false old heo
          hfind hrank
        simp [hrec, hne, hov, hmf2, h]
    · rw [dvd_append_global, hch, hfind]
      simp [hrec, hz]
    · rw [dvd_append_global, hch, hfind]
      by_cases hov : old.value = ""
      · have h := world_define_global_update w X (resolve newtext) origin
          false false false old heo hfind hrank
        simp [hrec, hne, hov, h]
      · have h := world_define_global_update w X
          (old.value ++ " " ++ resolve newtext) origin false false false
          old heo hfind hrank
        simp [hrec, hne, hov, hmf2, h]
    · rw [dvd_append_global, hch, hfind]
      simp [hrec, hz]

/-- Witness for C2 (amended) at the spec's test inputs:
`X := a; X += b` gives the immediate value `"a b"`, and
`X = a; X += b` gives the still-deferred value `"a b"`. -/
theorem claim_C2_append_merge_witness :
    ((do_variable_definition (fun s => s) (fun _ => none)
        ⟨[], ⟨[⟨"X", "a", variable_origin.o_file, false, false, false,
               variable_export.v_default, true, false, false⟩]⟩, false⟩
        "X" "b" variable_origin.o_file variable_flavor.f_append false
        variable_scope.s_global).1.value = "a b"
      ∧ (do_variable_definition (fun s => s) (fun _ => none)
          ⟨[], ⟨[⟨"X", "a", variable_origin.o_file, false, false, false,
                 variable_export.v_default, true, false, false⟩]⟩, false⟩
          "X" "b" variable_origin.o_file variable_flavor.f_append false
          variable_scope.s_global).1.recursive = false)
    ∧ ((do_variable_definition (fun s => s) (fun _ => none)
        ⟨[], ⟨[⟨"X", "a", variable_origin.o_file, true, false, false,
               variable_export.v_default, true, false, false⟩]⟩, false⟩
        "X" "b" variable_origin.o_file variable_flavor.f_append false
        variable_scope.s_global).1.value = "a b"
      ∧ (do_variable_definition (fun s => s) (fun _ => none)
          ⟨[], ⟨[⟨"X", "a", variable_origin.o_file, true, false, false,
                 variable_export.v_default, true, false, false⟩]⟩, false⟩
          "X" "b" variable_origin.o_file variable_flavor.f_append false
          variable_scope.s_global).1.recursive = true) := by
  constructor
  · have h := (claim_C2_append_merge (fun s => s) (fun _ => none)
      ⟨[], ⟨[⟨"X", "a", variable_origin.o_file, false, false, false,
             variable_export.v_default, true, false, false⟩]⟩, false⟩
      "X" "b" variable_origin.o_file rfl rfl (by decide)).2
      ⟨"X", "a", variable_origin.o_file, false, false, false,
        variable_export.v_default, true, false, false⟩ rfl (by decide)
    have h2 := (h.2 rfl).1 (by decide)
    constructor
    · rw [h2.1]
      decide
    · exact h2.2
  · have h := (claim_C2_append_merge (fun s => s) (fun _ => none)
      ⟨[], ⟨[⟨"X", "a", variable_origin.o_file, true, false, false,
             variable_export.v_default, true, false, false⟩]⟩, false⟩
      "X" "b" variable_origin.o_file rfl rfl (by decide)).2
      ⟨"X", "a", variable_origin.o_file, true, false, false,
        variable_export.v_default, true, false, false⟩ rfl (by decide)
    have h2 := (h.1 rfl).1 (by decide)
    constructor
    · rw [h2.1]
      decide
    · exact h2.2


/-! ## C7: `MAKEFLAGS` append positioning -/

/-- Counterexample for C7 as stated: appending `j` to a deferred
`MAKEFLAGS` binding whose value is `"B -- X=1"` yields `"B j"` — the
new text is indeed concatenated before the `" -- "` separator, but the
separator and the override text behind it do NOT remain trailing in
the resulting value: they are dropped altogether (the paste copies
only the part before the separator; `set_special_var` is left to
reconstruct the rest). -/
theorem claim_C7_makeflags_append_cex :
    (do_variable_definition (fun s => s) (fun _ => none)
        ⟨[], ⟨[⟨"MAKEFLAGS", "B -- X=1", variable_origin.o_file, true,
               false, false, variable_export.v_default, true, false,
               false⟩]⟩, false⟩
        "MAKEFLAGS" "j" variable_origin.o_file variable_flavor.f_append
        false variable_scope.s_global).1.value = "B j"
    ∧ str_contains "B j" " -- " = false := by
  constructor
  · rfl
  · decide

/-- C7 as amended.  For an append to `MAKEFLAGS` (once the gate passes,
deferred binding, nonempty new text) whose current value contains the
embedded `" -- "` separator at index `i`: the stored value is the old
value truncated at the separator, one space, then the new text — the
appended text is placed before where the separator stood, and the
separator together with the override text that followed it is dropped
from the stored value (its reconstruction is delegated to the
flags-re-derivation hook outside this store). -/
theorem claim_C7_makeflags_append (resolve : String → String)
    (runner : String → Option String) (w : world) (newtext : String)
    (origin : variable_origin) (old : Variable) (i : Nat)
    (hloc : w.locals = []) (heo : w.env_overrides = false)
    (hfind : lookup_variable_in_set MAKEFLAGS_NAME w.global_set
        = some old)
    (hrank : originRank old.origin ≤ originRank origin)
    (hrec : old.recursive = true)
    (hsep : strstr_idx " -- ".data old.value.data = some i)
    (hne : newtext ≠ "") :
    (do_variable_definition resolve runner w MAKEFLAGS_NAME newtext
        origin f_append false s_global).1.value
      = String.mk (old.value.data.take i) ++ " " ++ newtext := by
  have hov : old.value ≠ "" := by
    intro hv
    rw [hv] at hsep
    simp [strstr_idx] at hsep
  have hch : lookup_variable MAKEFLAGS_NAME (fullchain w)
      = lookup_variable_in_set MAKEFLAGS_NAME w.global_set := by
    rw [fullchain, hloc]
    simpa using lookup_variable_single MAKEFLAGS_NAME w.global_set false
      true
  rw [dvd_append_global, hch, hfind]
  have h := world_define_global_update w MAKEFLAGS_NAME
    (String.mk (old.value.data.take i) ++ " " ++ newtext) origin true
    false false old heo hfind hrank
  simp [hrec, hne, hov, hsep, h]

/-- Witness for C7 (amended) at a concrete input: with old value
`"B -- X=1"` (separator at index 1) and new text `"j"`, the stored
value is `"B j"`. -/
theorem claim_C7_makeflags_append_witness :
    (do_variable_definition (fun s => s) (fun _ => none)
        ⟨[], ⟨[⟨"MAKEFLAGS", "B -- X=1", variable_origin.o_file, true,
               false, false, variable_export.v_default, true, false,
               false⟩]⟩, false⟩
        "MAKEFLAGS" "j" variable_origin.o_file variable_flavor.f_append
        false variable_scope.s_global).1.value
      = String.mk ("B -- X=1".data.take 1) ++ " " ++ "j" :=
  claim_C7_makeflags_append (fun s => s) (fun _ => none)
    ⟨[], ⟨[⟨"MAKEFLAGS", "B -- X=1", variable_origin.o_file, true,
           false, false, variable_export.v_default, true, false,
           false⟩]⟩, false⟩
    "j" variable_origin.o_file
    ⟨"MAKEFLAGS", "B -- X=1", variable_origin.o_file, true, false,
      false, variable_export.v_default, true, false, false⟩ 1
    rfl rfl rfl (by decide) rfl (by decide) (by decide)


/-! ## C8: definition-line parsing disqualification -/

/-- A character that is not blank, not a comment marker, not a
reference marker, and cannot begin an assignment operator just becomes
part of the name — unless a blank run was already seen, in which case
the line is not a definition. -/
theorem handle_token_plain (c : Char) (p' acc : List Char)
    (frozen : Option (List Char)) (cond : Bool)
    (hc : c ∉ ['#', '=', ':', '?', '+', '!', '$', ' ', '\t']) :
    handle_token c p' acc frozen cond
      = if frozen.isSome then .done none
        else .next p' (acc ++ [c]) frozen false := by
  simp only [List.mem_cons, List.mem_singleton] at hc
  push_neg at hc
  obtain ⟨h1, h2, h3, h4, h5, h6, h7, h8, h9, -⟩ := hc
  simp only [handle_token, handle_op]
  simp [h1, h2, h3, h4, h5, h6, h7]

/-- The parser loop rejects any line whose first token (of plain
characters) is followed by a blank and then a second token starting
with a plain character: the `other:` branch observes `end` already set
and returns NULL. -/
theorem parse_loop_second_token (c0 : Char) (rest : List Char)
    (hc0 : c0 ∉ ['#', '=', ':', '?', '+', '!', '$', ' ', '\t']) :
    ∀ (t1 : List Char) (fuel : Nat) (acc : List Char) (cond : Bool),
      (∀ c ∈ t1, c ∉ ['#', '=', ':', '?', '+', '!', '$', ' ', '\t']) →
      t1.length + 2 ≤ fuel →
      parse_vardef_loop fuel (t1 ++ ' ' :: c0 :: rest) acc none cond
        = none := by
  have hc0' := hc0
  simp only [List.mem_cons, List.mem_singleton] at hc0'
  push_neg at hc0'
  obtain ⟨g1, g2, g3, g4, g5, g6, g7, g8, g9, -⟩ := hc0'
  intro t1
  induction t1 with
  | nil =>
      intro fuel acc cond _ hfuel
      obtain ⟨f, rfl⟩ : ∃ f, fuel = f + 2 := ⟨fuel - 2, by omega⟩
      have hdw : (c0 :: rest).dropWhile c_isblank = c0 :: rest := by
        rw [List.dropWhile_cons, if_neg]
        simp [c_isblank, g8, g9]
      simp [parse_vardef_loop, c_isblank, hdw, g1, g8, g9,
        handle_token_plain c0 rest acc (some acc) cond hc0]
  | cons c t1' ih =>
      intro fuel acc cond hplain hfuel
      obtain ⟨f, rfl⟩ : ∃ f, fuel = f + 1 := ⟨fuel - 1, by omega⟩
      have hcm := hplain c (List.mem_cons_self c t1')
      have hc := hcm
      simp only [List.mem_cons, List.mem_singleton] at hc
      push_neg at hc
      obtain ⟨k1, k2, k3, k4, k5, k6, k7, k8, k9, -⟩ := hc
      simp only [List.cons_append, parse_vardef_loop]
      rw [if_neg (by simp [k1]), if_neg (by simp [c_isblank, k8, k9])]
      rw [handle_token_plain c _ acc none cond hcm]
      simp only [Option.isSome_none, Bool.false_eq_true, if_false]
      exact ih f (acc ++ [c]) false
        (fun d hd => hplain d (List.mem_cons_of_mem c hd))
        (by simp only [List.length_cons] at hfuel; omega)

/-- C8 as amended.  A second run of blank characters before the
operator (a second plain token after the first) disqualifies the line —
`parse_variable_definition` returns "not a definition" — but a
reference-marker character does not by itself disqualify: the `$` and
the reference it starts are skipped as part of the name, so `a$b=c`
parses as a definition of the name `a$b`. -/
theorem claim_C8_parse_disqualification (t1 : List Char) (c0 : Char)
    (rest : List Char) (h1 : t1 ≠ [])
    (h2 : ∀ c ∈ c0 :: t1, c ∉ ['#', '=', ':', '?', '+', '!', '$', ' ', '\t']) :
    parse_variable_definition (t1 ++ ' ' :: c0 :: rest) = none
    ∧ parse_variable_definition "a$b=c".data
        = some ⟨['a', '$', 'b'], f_recursive, false, ['c']⟩ := by
  constructor
  · match t1, h1 with
    | c :: t1', _ =>
        have hcm := h2 c (by simp)
        have hc := hcm
        simp only [List.mem_cons, List.mem_singleton] at hc
        push_neg at hc
        obtain ⟨k1, k2, k3, k4, k5, k6, k7, k8, k9, -⟩ := hc
        rw [parse_variable_definition]
        have hdw : ((c :: t1') ++ ' ' :: c0 :: rest).dropWhile c_isblank
            = (c :: t1') ++ ' ' :: c0 :: rest := by
          rw [List.cons_append, List.dropWhile_cons, if_neg]
          simp [c_isblank, k8, k9]
        rw [hdw]
        exact parse_loop_second_token c0 rest (h2 c0 (by simp))
          (c :: t1') _ [] false
          (fun d hd => h2 d (List.mem_cons_of_mem c0 hd))
          (by simp only [List.length_append, List.length_cons]
              omega)
  · decide

/-- Witness for C8 (amended): `F B = x` is not a definition, while
`a$b=c` is. -/
theorem claim_C8_parse_disqualification_witness :
    parse_variable_definition ("F".data ++ ' ' :: 'B' :: " = x".data)
        = none
    ∧ parse_variable_definition "a$b=c".data
        = some ⟨['a', '$', 'b'], f_recursive, false, ['c']⟩ :=
  claim_C8_parse_disqualification "F".data 'B' " = x".data
    (by decide) (by decide)

/-- Counterexample for C8 as stated: the line `a$b=c` has a
reference-marker `$` in the text before the operator, yet the parser
accepts it as a definition (of the name `a$b`) instead of returning
"not a definition". -/
theorem claim_C8_parse_disqualification_cex :
    parse_variable_definition "a$b=c".data ≠ none
    ∧ parse_variable_definition "a$b=c".data
        = some ⟨['a', '$', 'b'], f_recursive, false, ['c']⟩
    ∧ '$' ∈ (['a', '$', 'b'] : List Char) := by
  refine ⟨?_, by decide, by decide⟩
  intro h
  simp [show parse_variable_definition "a$b=c".data
      = some ⟨['a', '$', 'b'], f_recursive, false, ['c']⟩ from by decide] at h


/-! ## C3: the pattern-variable index invariant -/

/-- The fallback scan inserts the new entry somewhere in the list. -/
theorem insert_sorted_perm (p : pattern_var) :
    ∀ l : List pattern_var, (insert_sorted p l).Perm (p :: l) := by
  intro l
  induction l with
  | nil => simp [insert_sorted]
  | cons q rest ih =>
      simp only [insert_sorted]
      split
      · exact List.Perm.refl _
      · exact (ih.cons q).trans (List.Perm.swap p q rest)

/-- Membership in an insertion. -/
theorem insert_sorted_mem {p x : pattern_var} {l : List pattern_var} :
    x ∈ insert_sorted p l ↔ x = p ∨ x ∈ l := by
  rw [(insert_sorted_perm p l).mem_iff]
  simp

/-- The fallback scan keeps the list `pv_le`-ordered when the new
entry's id is fresh (largest). -/
theorem insert_sorted_pairwise {p : pattern_var} {l : List pattern_var}
    (hl : l.Pairwise pv_le) (hid : ∀ q ∈ l, q.id < p.id) :
    (insert_sorted p l).Pairwise pv_le := by
  induction l with
  | nil => simp [insert_sorted, List.Pairwise.nil]
  | cons q rest ih =>
      rw [List.pairwise_cons] at hl
      simp only [insert_sorted]
      split
      · rename_i hlt
        refine List.Pairwise.cons ?_ (List.Pairwise.cons hl.1 hl.2)
        intro x hx
        rcases List.mem_cons.mp hx with rfl | hx
        · exact Or.inl hlt
        · have := hl.1 x hx
          rcases this with h | h
          · exact Or.inl (lt_trans hlt h)
          · exact Or.inl (lt_of_lt_of_le hlt (le_of_eq h.1))
      · rename_i hge
        push_neg at hge
        refine List.Pairwise.cons ?_ (ih hl.2 (fun x hx => hid x (List.mem_cons_of_mem q hx)))
        intro x hx
        rcases insert_sorted_mem.mp hx with rfl | hx
        · rcases lt_or_eq_of_le hge with h | h
          · exact Or.inl h
          · exact Or.inr ⟨h, hid q (List.mem_cons_self q rest)⟩
        · exact hl.1 x hx

/-- Entries of the new entry's length: insertion appends it at the
tail of that run. -/
theorem insert_sorted_filter_eq {p : pattern_var} {l : List pattern_var}
    (hl : l.Pairwise pv_le) :
    (insert_sorted p l).filter (fun q => pv_len q == pv_len p)
      = l.filter (fun q => pv_len q == pv_len p) ++ [p] := by
  induction l with
  | nil => simp [insert_sorted]
  | cons q rest ih =>
      rw [List.pairwise_cons] at hl
      simp only [insert_sorted]
      split
      · rename_i hlt
        have h1 : (List.filter (fun q => pv_len q == pv_len p) (q :: rest)) = [] := by
          rw [List.filter_eq_nil_iff]
          intro x hx
          rcases List.mem_cons.mp hx with rfl | hx
          · simp
            omega
          · have hxlen : pv_len q ≤ pv_len x := by
              rcases hl.1 x hx with h | h
              · exact le_of_lt h
              · exact le_of_eq h.1
            simp
            omega
        rw [List.filter_cons, h1]
        simp
      · rename_i hge
        push_neg at hge
        rw [List.filter_cons, List.filter_cons]
        by_cases hq : (pv_len q == pv_len p) = true
        · simp only [hq, if_true]
          rw [ih hl.2]
          rfl
        · simp only [hq, Bool.false_eq_true, if_false]
          exact ih hl.2

/-- Entries of any other length are untouched by insertion. -/
theorem insert_sorted_filter_ne {p : pattern_var} {l : List pattern_var}
    {L : Nat} (hL : L ≠ pv_len p) :
    (insert_sorted p l).filter (fun q => pv_len q == L)
      = l.filter (fun q => pv_len q == L) := by
  induction l with
  | nil => simp [insert_sorted, hL, Ne.symm hL]
  | cons q rest ih =>
      simp only [insert_sorted]
      split
      · rw [List.filter_cons]
        have : (pv_len p == L) = false := by
          simp
          omega
        simp [this]
      · rw [List.filter_cons, List.filter_cons, ih]


/-- The cached insertion path coincides with the scan: splicing the
new entry behind the positionally last entry of its length (the one
the `last_pattern_vars` cache points to) produces exactly the
insert-before-first-longer result. -/
theorem insert_after_id_eq {p e : pattern_var} :
    ∀ {l : List pattern_var}, l.Pairwise pv_le →
      (l.map pattern_var.id).Nodup →
      (l.filter (fun q => pv_len q == pv_len p)).getLast? = some e →
      insert_after_id e.id p l = insert_sorted p l := by
  intro l
  induction l with
  | nil =>
      intro _ _ hfl
      simp at hfl
  | cons q rest ih =>
      intro hl hnd hfl
      rw [List.pairwise_cons] at hl
      simp only [List.map_cons, List.nodup_cons] at hnd
      have hemem : e ∈ List.filter (fun q => pv_len q == pv_len p) (q :: rest) :=
        List.mem_of_mem_getLast? (by rw [hfl]; rfl)
      have he2 := List.mem_filter.mp hemem
      have helen : pv_len e = pv_len p := by simpa using he2.2
      have hqle : pv_len q ≤ pv_len p := by
        by_contra hq
        push_neg at hq
        have hne : pv_len e ≠ pv_len p := by
          rcases List.mem_cons.mp he2.1 with rfl | hm
          · omega
          · rcases hl.1 e hm with h | h
            · omega
            · omega
        exact hne helen
      simp only [insert_after_id, insert_sorted]
      by_cases hqe : (q.id == e.id) = true
      · have hq_eq : q = e := by
          rcases List.mem_cons.mp he2.1 with h | hm
          · exact h.symm
          · exfalso
            refine hnd.1 ?_
            rw [eq_of_beq hqe]
            exact List.mem_map_of_mem pattern_var.id hm
        subst hq_eq
        have hqlen : (pv_len q == pv_len p) = true := by
          simp [helen]
        have hfr : List.filter (fun x => pv_len x == pv_len p) rest = [] := by
          cases hfr : List.filter (fun x => pv_len x == pv_len p) rest with
          | nil => rfl
          | cons y ys =>
              exfalso
              rw [List.filter_cons, if_pos hqlen, hfr,
                List.getLast?_cons_cons] at hfl
              have : q ∈ y :: ys := by
                have := List.mem_of_mem_getLast? (l := y :: ys) (by rw [hfl]; rfl)
                exact this
              rw [← hfr] at this
              have := (List.mem_filter.mp this).1
              exact hnd.1 (List.mem_map_of_mem pattern_var.id this)
        have hins : insert_sorted p rest = p :: rest := by
          cases rest with
          | nil => rfl
          | cons r rs =>
              have hr : ¬ (pv_len r == pv_len p) = true :=
                List.filter_eq_nil_iff.mp hfr r (List.mem_cons_self r rs)
              have hrne : pv_len r ≠ pv_len p := by simpa using hr
              have hle := hl.1 r (List.mem_cons_self r rs)
              rw [insert_sorted, if_pos]
              rcases hle with h | h
              · omega
              · omega
        rw [if_pos hqe, hins]
        rw [if_neg (by omega)]
      · rw [if_neg hqe]
        have hfl' : (List.filter (fun x => pv_len x == pv_len p) rest).getLast? = some e := by
          rw [List.filter_cons] at hfl
          by_cases hq : (pv_len q == pv_len p) = true
          · rw [if_pos hq] at hfl
            cases hfr : List.filter (fun x => pv_len x == pv_len p) rest with
            | nil =>
                exfalso
                rw [hfr] at hfl
                simp [List.getLast?_cons] at hfl
                exact hqe (by simp [hfl])
            | cons y ys =>
                rw [hfr, List.getLast?_cons_cons] at hfl
                exact hfl
          · rw [if_neg hq] at hfl
            exact hfl
        rw [ih hl.2 hnd.2 hfl']
        rw [if_neg (by omega)]


/-- `create_pattern_var` written as one record equation. -/
theorem create_pattern_var_eq (st : pattern_var_state)
    (pre suf : List Char) :
    create_pattern_var st pre suf =
      { pattern_vars :=
          (if st.pattern_vars.isEmpty then [⟨st.next_id, pre, suf⟩]
           else
             match (if pre.length + 1 + suf.length < 256 then
                      st.lastvars (pre.length + 1 + suf.length)
                    else none) with
             | some i =>
                 insert_after_id i ⟨st.next_id, pre, suf⟩ st.pattern_vars
             | none => insert_sorted ⟨st.next_id, pre, suf⟩ st.pattern_vars)
        lastvars := fun l =>
          if l = pre.length + 1 + suf.length
             ∧ pre.length + 1 + suf.length < 256
          then some st.next_id else st.lastvars l
        next_id := st.next_id + 1 } := rfl

/-- One `create_pattern_var` call preserves the registry invariant. -/
theorem pv_inv_create (st : pattern_var_state) (pre suf : List Char)
    (h : pv_inv st) : pv_inv (create_pattern_var st pre suf) := by
  obtain ⟨hord, hnd, hlt, hcache⟩ := h
  have hplen : pv_len ⟨st.next_id, pre, suf⟩ = pre.length + 1 + suf.length := rfl
  have hlist : (create_pattern_var st pre suf).pattern_vars
      = insert_sorted ⟨st.next_id, pre, suf⟩ st.pattern_vars := by
    rw [create_pattern_var_eq]
    by_cases hemp : st.pattern_vars.isEmpty
    · simp only [hemp, if_true]
      rw [List.isEmpty_iff.mp hemp]
      rfl
    · simp only [hemp, Bool.false_eq_true, if_false]
      by_cases hc : pre.length + 1 + suf.length < 256
      · cases hcv : st.lastvars (pre.length + 1 + suf.length) with
        | none => simp only [hc, if_true, hcv]
        | some i =>
            simp only [hc, if_true, hcv]
            have hcc := hcache (pre.length + 1 + suf.length) hc
            rw [hcv] at hcc
            cases hgl : (st.pattern_vars.filter
                (fun p => pv_len p == pre.length + 1 + suf.length)).getLast? with
            | none =>
                rw [hgl] at hcc
                exact Option.noConfusion hcc
            | some e =>
                rw [hgl] at hcc
                have hcc2 : i = e.id := Option.some.inj hcc
                subst hcc2
                exact insert_after_id_eq hord hnd hgl
      · simp only [hc, if_false]
  have hidlt : ∀ q ∈ st.pattern_vars,
      q.id < (⟨st.next_id, pre, suf⟩ : pattern_var).id :=
    fun q hq => hlt q hq
  refine ⟨?_, ?_, ?_, ?_⟩
  · rw [hlist]
    exact insert_sorted_pairwise hord hidlt
  · rw [hlist]
    have hperm := (insert_sorted_perm ⟨st.next_id, pre, suf⟩
      st.pattern_vars).map pattern_var.id
    rw [hperm.nodup_iff]
    simp only [List.map_cons, List.nodup_cons]
    refine ⟨?_, hnd⟩
    intro hmem
    obtain ⟨q, hq, hq2⟩ := List.mem_map.mp hmem
    have h1 := hlt q hq
    have hq2' : q.id = st.next_id := hq2
    omega
  · rw [hlist]
    rw [show (create_pattern_var st pre suf).next_id = st.next_id + 1 from rfl]
    intro q hq
    rcases insert_sorted_mem.mp hq with rfl | hq
    · exact Nat.lt_succ_self _
    · exact Nat.lt_succ_of_lt (hlt q hq)
  · intro l2 hl2
    rw [hlist] at *
    rw [show (create_pattern_var st pre suf).lastvars l2
        = (if l2 = pre.length + 1 + suf.length
             ∧ pre.length + 1 + suf.length < 256
           then some st.next_id else st.lastvars l2) from rfl]
    by_cases heq : l2 = pre.length + 1 + suf.length
    · subst heq
      rw [if_pos ⟨rfl, hl2⟩]
      have hf := insert_sorted_filter_eq (p := ⟨st.next_id, pre, suf⟩) hord
      rw [hplen] at hf
      rw [hf, List.getLast?_concat]
      rfl
    · rw [if_neg (by tauto)]
      have hf := insert_sorted_filter_ne (p := ⟨st.next_id, pre, suf⟩)
        (l := st.pattern_vars) (L := l2) (by rw [hplen]; exact heq)
      rw [hf]
      exact hcache l2 hl2

/-- The initial registry satisfies the invariant. -/
theorem pv_inv_init : pv_inv pv_init := by
  refine ⟨List.Pairwise.nil, List.nodup_nil, ?_, ?_⟩
  · intro p hp
    simp [pv_init] at hp
  · intro l hl
    simp [pv_init]

/-- Any sequence of `create_pattern_var` calls preserves the
invariant. -/
theorem pv_inv_create_many (inputs : List (List Char × List Char)) :
    ∀ st, pv_inv st → pv_inv (create_many st inputs) := by
  induction inputs with
  | nil => intro st h; exact h
  | cons x rest ih =>
      intro st h
      exact ih _ (pv_inv_create st x.1 x.2 h)

/-- On a `pv_le`-ordered list, the first match of a forward walk is a
match of minimal pattern length. -/
theorem find?_shortest {l : List pattern_var} (hord : l.Pairwise pv_le)
    {target : List Char} {p : pattern_var}
    (h : l.find? (fun q => pv_matches q target) = some p) :
    pv_matches p target = true ∧ p ∈ l
      ∧ ∀ q ∈ l, pv_matches q target = true → pv_len p ≤ pv_len q := by
  induction l with
  | nil => simp [List.find?] at h
  | cons x xs ih =>
      rw [List.pairwise_cons] at hord
      cases hx : pv_matches x target with
      | true =>
          simp only [List.find?, hx] at h
          cases h
          refine ⟨hx, List.mem_cons_self _ _, ?_⟩
          intro q hq _
          rcases List.mem_cons.mp hq with rfl | hq
          · exact le_refl _
          · rcases hord.1 q hq with h | h
            · exact le_of_lt h
            · exact le_of_eq h.1
      | false =>
          simp only [List.find?, hx] at h
          obtain ⟨h1, h2, h3⟩ := ih hord.2 h
          refine ⟨h1, List.mem_cons_of_mem x h2, ?_⟩
          intro q hq hqm
          rcases List.mem_cons.mp hq with rfl | hq
          · rw [hx] at hqm
            cases hqm
          · exact h3 q hq hqm

/-- C3.  After any sequence of `create_pattern_var` calls the registry
list is sorted by ascending pattern length with equal-length entries in
their original definition (allocation) order — each new entry lands at
the tail of its equal-length run, whether through the
`last_pattern_vars` cache or the scan — and a `lookup_pattern_var` from
the start returns the first entry whose pattern matches the target by
the stem rule, which is therefore of minimal length among all matching
entries: a shorter and a longer pattern both matching the target means
the shorter one is tried and returned first. -/
theorem claim_C3_pattern_index (inputs : List (List Char × List Char)) :
    (create_many pv_init inputs).pattern_vars.Pairwise pv_le
    ∧ ∀ (target : List Char) (p : pattern_var),
        lookup_pattern_var (create_many pv_init inputs).pattern_vars none
            target = some p →
          pv_matches p target = true
          ∧ p ∈ (create_many pv_init inputs).pattern_vars
          ∧ ∀ q ∈ (create_many pv_init inputs).pattern_vars,
              pv_matches q target = true → pv_len p ≤ pv_len q := by
  have hinv := pv_inv_create_many inputs pv_init pv_inv_init
  refine ⟨hinv.1, ?_⟩
  intro target p h
  exact find?_shortest hinv.1 h

/-- Witness for C3 at concrete inputs: with `%.o` and `a%.o` both
registered and both matching `aa.o`, the lookup from the start returns
the shorter `%.o`. -/
theorem claim_C3_pattern_index_witness :
    pv_matches ⟨0, [], ['.', 'o']⟩ ['a', 'a', '.', 'o'] = true
    ∧ pv_len ⟨0, [], ['.', 'o']⟩ ≤ pv_len ⟨1, ['a'], ['.', 'o']⟩ := by
  have h := (claim_C3_pattern_index
      [([], ['.', 'o']), (['a'], ['.', 'o'])]).2 ['a', 'a', '.', 'o']
      ⟨0, [], ['.', 'o']⟩ (by decide)
  exact ⟨h.1, h.2.2 ⟨1, ['a'], ['.', 'o']⟩ (by decide) (by decide)⟩


/-! ## C4: the environment projector -/

/-- Replacing at a slot whose key differs from the probe leaves find? unchanged. -/
theorem find?_replace_first_other {α : Type} {p q : α → Bool} {a : α}
    (hq : ∀ x, q x = true → p x = false) (ha : p a = false) :
    ∀ l : List α, (replace_first q a l).find? p = l.find? p := by
  intro l
  induction l with
  | nil => rfl
  | cons x xs ih =>
      simp only [replace_first]
      by_cases hx : q x = true
      · rw [if_pos hx]
        simp [List.find?, ha, hq x hx]
      · rw [if_neg hx]
        simp only [List.find?]
        cases hpx : p x
        · simp [ih]
        · rfl

/-- Replacing by a value with the same projection leaves the projected list unchanged. -/
theorem map_replace_first {α β : Type} {f : α → β} {q : α → Bool} {a : α}
    (hq : ∀ x, q x = true → f x = f a) :
    ∀ l : List α, (replace_first q a l).map f = l.map f := by
  intro l
  induction l with
  | nil => rfl
  | cons x xs ih =>
      simp only [replace_first]
      by_cases hx : q x = true
      · rw [if_pos hx]
        simp [hq x hx]
      · rw [if_neg hx]
        simp [ih]

/-- Pass 1 of target_environment: adding a variable of another name does not change a lookup. -/
theorem te_add_var_find_ne {ea il ig : Bool} {T : List Variable}
    {v : Variable} {n : String} (hne : v.name ≠ n) :
    (te_add_var ea il ig T v).find? (fun w => w.name == n)
      = T.find? (fun w => w.name == n) := by
  unfold te_add_var
  split
  · rfl
  · cases hf : T.find? (fun w => w.name == v.name) with
    | none =>
        simp only [hf]
        split
        · rw [List.find?_append]
          have hvn : (v.name == n) = false := by simp [hne]
          have h1 : ([v].find? (fun w => w.name == n)) = none := by
            simp [List.find?, hvn]
          rw [h1, Option.or_none]
        · rfl
    | some w =>
        simp only [hf]
        split
        · refine find?_replace_first_other ?_ ?_ T
          · intro x hx
            have : x.name = v.name := by simpa using hx
            simp [this, hne]
          · have hw : w.name = v.name := by
              have := List.find?_some hf
              simpa using this
            simp [hw, hne]
        · rfl

/-- Pass 1 of target_environment: the effect of adding a variable on the lookup of its own name — privates are skipped, an existing entry only has a default export status overwritten, a fresh one is filtered by should_export when the set is the global one. -/
theorem te_add_var_find_eq {ea il ig : Bool} {T : List Variable}
    {v : Variable} {n : String} (hv : v.name = n) :
    (te_add_var ea il ig T v).find? (fun w => w.name == n)
      = (if !il && v.private_var then T.find? (fun w => w.name == n)
         else
           match T.find? (fun w => w.name == n) with
           | some w =>
               some (if w.export_status == v_default
                     then { w with export_status := v.export_status }
                     else w)
           | none =>
               if !ig || should_export ea v then some v else none) := by
  subst hv
  unfold te_add_var
  split
  · rfl
  · cases hf : T.find? (fun w => w.name == v.name) with
    | none =>
        simp only [hf]
        split
        · rw [List.find?_append, hf]
          simp [List.find?]
        · exact hf
    | some w =>
        simp only [hf]
        have hw : (({ w with export_status := v.export_status } : Variable).name == v.name) = true := by
          have := List.find?_some hf
          simpa using this
        split
        · refine find?_replace_first (p := fun (x : Variable) => x.name == v.name) hw ?_
          rw [hf]
          rfl
        · exact hf

/-- Pass 1 of target_environment keeps the table free of duplicate names. -/
theorem te_add_var_names_nodup {ea il ig : Bool} {T : List Variable}
    {v : Variable} (h : (T.map Variable.name).Nodup) :
    ((te_add_var ea il ig T v).map Variable.name).Nodup := by
  unfold te_add_var
  split
  · exact h
  · cases hf : T.find? (fun w => w.name == v.name) with
    | none =>
        simp only [hf]
        split
        · rw [List.map_append]
          simp only [List.map_cons, List.map_nil]
          rw [List.nodup_append]
          refine ⟨h, List.nodup_singleton _, ?_⟩
          intro a ha
          simp only [List.mem_singleton]
          intro heq
          obtain ⟨x, hx, hx2⟩ := List.mem_map.mp ha
          rw [List.find?_eq_none] at hf
          have := hf x hx
          simp [hx2, heq] at this
        · exact h
    | some w =>
        simp only [hf]
        split
        · rw [map_replace_first ?_ T]
          · exact h
          · intro x hx
            have hxn : x.name = v.name := by simpa using hx
            have hwn : w.name = v.name := by
              have := List.find?_some hf
              simpa using this
            simp [hxn, hwn]
        · exact h

/-- Folding a whole set none of whose variables carry the probed name leaves the lookup unchanged. -/
theorem te_fold_find_ne {ea il ig : Bool} {n : String} :
    ∀ (vs : List Variable) (T : List Variable),
      (∀ v ∈ vs, v.name ≠ n) →
      (vs.foldl (te_add_var ea il ig) T).find? (fun w => w.name == n)
        = T.find? (fun w => w.name == n) := by
  intro vs
  induction vs with
  | nil => intro T _; rfl
  | cons u rest ih =>
      intro T hvs
      simp only [List.foldl_cons]
      rw [ih _ (fun v hv => hvs v (List.mem_cons_of_mem u hv))]
      exact te_add_var_find_ne (hvs u (List.mem_cons_self u rest))

/-- Folding a whole set keeps the no-duplicate-names invariant of the table. -/
theorem te_fold_names_nodup {ea il ig : Bool} :
    ∀ (vs : List Variable) (T : List Variable),
      (T.map Variable.name).Nodup →
      ((vs.foldl (te_add_var ea il ig) T).map Variable.name).Nodup := by
  intro vs
  induction vs with
  | nil => intro T h; exact h
  | cons u rest ih =>
      intro T h
      simp only [List.foldl_cons]
      exact ih _ (te_add_var_names_nodup h)

/-- Characterisation of the table lookup after folding one scope of the chain: the first set in walk order wins, later sets only patch a default export status. -/
theorem te_fold_find {ea il ig : Bool} {n : String} :
    ∀ (vs : List Variable) (T : List Variable),
      (vs.map Variable.name).Nodup →
      (vs.foldl (te_add_var ea il ig) T).find? (fun w => w.name == n)
        = (match vs.find? (fun v => v.name == n) with
           | none => T.find? (fun w => w.name == n)
           | some v =>
               if !il && v.private_var then T.find? (fun w => w.name == n)
               else
                 match T.find? (fun w => w.name == n) with
                 | some w =>
                     some (if w.export_status == v_default
                           then { w with export_status := v.export_status }
                           else w)
                 | none =>
                     if !ig || should_export ea v then some v
                     else none) := by
  intro vs
  induction vs with
  | nil => intro T _; rfl
  | cons u rest ih =>
      intro T hnd
      simp only [List.map_cons, List.nodup_cons] at hnd
      simp only [List.foldl_cons]
      by_cases hu : u.name = n
      · have hrest : ∀ v ∈ rest, v.name ≠ n := by
          intro v hv heq
          refine hnd.1 ?_
          rw [hu, ← heq]
          exact List.mem_map_of_mem Variable.name hv
        rw [te_fold_find_ne rest _ hrest]
        rw [te_add_var_find_eq hu]
        have hfu : (u :: rest).find? (fun v => v.name == n) = some u := by
          simp [List.find?, hu]
        rw [hfu]
      · rw [ih _ hnd.2]
        have hfu : (u :: rest).find? (fun v => v.name == n)
            = rest.find? (fun v => v.name == n) := by
          have : (u.name == n) = false := by simp [hu]
          simp [List.find?, this]
        rw [hfu, te_add_var_find_ne hu]

/-- With no pending invalidation, the per-variable output step reduces to a plain conditional expression. -/
theorem te_emit_var_none_char (P : te_params) (st : te_flags)
    (v : Variable) (hinv : st.invalid = none) :
    te_emit_var P st v
      = (if !should_export P.export_all v then (st, none)
         else
           let value :=
             if v.recursive
                && ((!(v.origin == o_env) && !(v.origin == o_env_override))
                    || v.name == MAKEFLAGS_NAME)
             then P.resolve_var v else v.value
           if !st.added_SHELL && v.name == "SHELL" then
             ({ st with added_SHELL := true }, some (v.name, value))
           else if !st.found_makelevel && v.name == MAKELEVEL_NAME then
             ({ st with found_makelevel := true },
              some (v.name, toString (P.makelevel + 1)))
           else (st, some (v.name, value))) := by
  obtain ⟨a, m, f1, f2, inv⟩ := st
  simp only at hinv
  subst hinv
  rfl

/-- A pending invalidation suppresses all output of the step. -/
theorem te_emit_var_invalid {P : te_params} {st : te_flags}
    {v : Variable} (hinv : st.invalid = none) :
    (te_emit_var P st v).1.invalid = none := by
  rw [te_emit_var_none_char P st v hinv]
  repeat' split
  all_goals exact hinv

/-- A variable the export filter rejects emits nothing and changes no flag. -/
theorem te_emit_var_noexp {P : te_params} {st : te_flags} {v : Variable}
    (hexp : should_export P.export_all v = false) :
    te_emit_var P st v = (st, none) := by
  unfold te_emit_var
  rw [hexp]
  rfl

/-- An exported variable emits exactly its name=value line. -/
theorem te_emit_var_out {P : te_params} {st : te_flags} {v : Variable}
    (hinv : st.invalid = none) (hml : v.name ≠ MAKELEVEL_NAME)
    (hexp : should_export P.export_all v = true) :
    (te_emit_var P st v).2
      = some (v.name,
          if v.recursive
             && ((!(v.origin == o_env) && !(v.origin == o_env_override))
                 || v.name == MAKEFLAGS_NAME)
          then P.resolve_var v else v.value) := by
  rw [te_emit_var_none_char P st v hinv]
  have hml2 : (v.name == MAKELEVEL_NAME) = false := by simp [hml]
  simp only [hexp, Bool.not_true, Bool.false_eq_true, if_false, hml2,
    Bool.and_false]
  repeat' split
  all_goals rfl

/-- The name field of the emitted pair is the variable name. -/
theorem te_emit_var_out_name {P : te_params} {st : te_flags}
    {v : Variable} {pr : String × String} (hinv : st.invalid = none)
    (h : (te_emit_var P st v).2 = some pr) : pr.1 = v.name := by
  rw [te_emit_var_none_char P st v hinv] at h
  repeat' split at h
  all_goals first | (cases h; rfl) | cases h

/-- The added_SHELL flag never goes back from true to false. -/
theorem te_emit_var_sh_mono {P : te_params} {st : te_flags}
    {v : Variable} (hinv : st.invalid = none)
    (h : st.added_SHELL = true) :
    (te_emit_var P st v).1.added_SHELL = true := by
  rw [te_emit_var_none_char P st v hinv]
  repeat' split
  all_goals first | exact h | rfl

/-- The found_makelevel flag never goes back from true to false. -/
theorem te_emit_var_ml_mono {P : te_params} {st : te_flags}
    {v : Variable} (hinv : st.invalid = none)
    (h : st.found_makelevel = true) :
    (te_emit_var P st v).1.found_makelevel = true := by
  rw [te_emit_var_none_char P st v hinv]
  repeat' split
  all_goals first | exact h | rfl

/-- Emitting the variable named SHELL sets the added_SHELL flag. -/
theorem te_emit_var_sh_set {P : te_params} {st : te_flags} {v : Variable}
    (hinv : st.invalid = none) (hn : v.name = "SHELL")
    (hexp : should_export P.export_all v = true) :
    (te_emit_var P st v).1.added_SHELL = true := by
  rw [te_emit_var_none_char P st v hinv]
  rw [if_neg (by simp [hexp])]
  by_cases ha : st.added_SHELL = true
  · rw [if_neg (by simp [ha])]
    repeat' split
    all_goals exact ha
  · rw [if_pos (by simp [ha, hn])]


/-- The fold step of the output loop, unfolded. -/
theorem te_step_eq (P : te_params) (st : te_flags)
    (acc : List (String × String)) (v : Variable) :
    te_step P (st, acc) v
      = ((te_emit_var P st v).1, acc ++ (te_emit_var P st v).2.toList) :=
  rfl

/-- The accumulated output of the loop factors through the empty accumulator. -/
theorem te_fold_acc (P : te_params) :
    ∀ (table : List Variable) (st : te_flags)
      (acc : List (String × String)),
      table.foldl (te_step P) (st, acc)
        = ((table.foldl (te_step P) (st, [])).1,
           acc ++ (table.foldl (te_step P) (st, [])).2) := by
  intro table
  induction table with
  | nil => intro st acc; simp
  | cons v rest ih =>
      intro st acc
      simp only [List.foldl_cons, te_step_eq]
      rw [ih ((te_emit_var P st v).1) (acc ++ (te_emit_var P st v).2.toList),
          ih ((te_emit_var P st v).1) ([] ++ (te_emit_var P st v).2.toList)]
      simp

/-- A pending invalidation makes the whole output loop a no-op. -/
theorem te_fold_invalid (P : te_params) :
    ∀ (table : List Variable) (st : te_flags)
      (acc : List (String × String)), st.invalid = none →
      (table.foldl (te_step P) (st, acc)).1.invalid = none := by
  intro table
  induction table with
  | nil => intro st acc h; exact h
  | cons v rest ih =>
      intro st acc h
      simp only [List.foldl_cons, te_step_eq]
      exact ih _ _ (te_emit_var_invalid h)

/-- Monotonicity of added_SHELL across the whole loop. -/
theorem te_fold_sh_mono (P : te_params) :
    ∀ (table : List Variable) (st : te_flags)
      (acc : List (String × String)), st.invalid = none →
      st.added_SHELL = true →
      (table.foldl (te_step P) (st, acc)).1.added_SHELL = true := by
  intro table
  induction table with
  | nil => intro st acc _ h; exact h
  | cons v rest ih =>
      intro st acc hinv h
      simp only [List.foldl_cons, te_step_eq]
      exact ih _ _ (te_emit_var_invalid hinv) (te_emit_var_sh_mono hinv h)

/-- Names absent from the table are never emitted by the loop. -/
theorem te_fold_count_zero (P : te_params) {n : String} :
    ∀ (table : List Variable) (st : te_flags)
      (acc : List (String × String)), st.invalid = none →
      (∀ v ∈ table, v.name ≠ n) →
      (table.foldl (te_step P) (st, acc)).2.countP
          (fun pr => pr.1 == n)
        = acc.countP (fun pr => pr.1 == n) := by
  intro table
  induction table with
  | nil => intro st acc _ _; rfl
  | cons v rest ih =>
      intro st acc hinv hno
      simp only [List.foldl_cons, te_step_eq]
      rw [ih _ _ (te_emit_var_invalid hinv)
        (fun u hu => hno u (List.mem_cons_of_mem v hu))]
      rw [List.countP_append]
      have hz : ((te_emit_var P st v).2.toList).countP
          (fun pr => pr.1 == n) = 0 := by
        cases ho : (te_emit_var P st v).2 with
        | none => rfl
        | some pr =>
            have := te_emit_var_out_name hinv ho
            simp only [Option.toList_some]
            rw [List.countP_singleton]
            have : (pr.1 == n) = false := by
              simp [this, hno v (List.mem_cons_self v rest)]
            simp [this]
      rw [hz]
      omega


/-- Main counting lemma of the output loop: a name present once in the deduplicated table and passing the export filter is emitted exactly once, with the value the source computes for it; emitting SHELL records that no fallback is needed. -/
theorem te_fold_main (P : te_params) {n : String}
    (hml : n ≠ MAKELEVEL_NAME) :
    ∀ (table : List Variable) (st : te_flags)
      (acc : List (String × String)),
      st.invalid = none →
      (table.map Variable.name).Nodup →
      ∀ e, table.find? (fun w => w.name == n) = some e →
        should_export P.export_all e = true →
        ((table.foldl (te_step P) (st, acc)).2.countP
            (fun pr => pr.1 == n)
          = acc.countP (fun pr => pr.1 == n) + 1
         ∧ (n, if e.recursive
                 && ((!(e.origin == o_env) && !(e.origin == o_env_override))
                     || e.name == MAKEFLAGS_NAME)
               then P.resolve_var e else e.value)
             ∈ (table.foldl (te_step P) (st, acc)).2
         ∧ (n = "SHELL" →
             (table.foldl (te_step P) (st, acc)).1.added_SHELL = true)) := by
  intro table
  induction table with
  | nil =>
      intro st acc _ _ e he
      simp [List.find?] at he
  | cons v rest ih =>
      intro st acc hinv hnd e he hexp
      simp only [List.map_cons, List.nodup_cons] at hnd
      by_cases hv : v.name = n
      · have hev : e = v := by
          have hb : (v.name == n) = true := by simp [hv]
          simp only [List.find?, hb] at he
          exact (Option.some.inj he).symm
        subst hev
        have hrest : ∀ u ∈ rest, u.name ≠ n := by
          intro u hu heq
          refine hnd.1 ?_
          rw [hv, ← heq]
          exact List.mem_map_of_mem Variable.name hu
        have hout := te_emit_var_out hinv (by rw [hv]; exact hml) hexp
        have hinv' : ((te_emit_var P st e).1).invalid = none :=
          te_emit_var_invalid hinv
        simp only [List.foldl_cons, te_step_eq, hout, Option.toList_some]
        refine ⟨?_, ?_, ?_⟩
        · rw [te_fold_count_zero P rest _ _ hinv' hrest]
          rw [List.countP_append]
          simp [hv]
        · rw [te_fold_acc]
          refine List.mem_append_left _ ?_
          refine List.mem_append_right _ ?_
          simp [hv]
        · intro hsh
          refine te_fold_sh_mono P rest _ _ hinv' ?_
          exact te_emit_var_sh_set hinv (by rw [hv, hsh]) hexp
      · have hb : (v.name == n) = false := by simp [hv]
        simp only [List.find?, hb] at he
        have hinv' : ((te_emit_var P st v).1).invalid = none :=
          te_emit_var_invalid hinv
        simp only [List.foldl_cons, te_step_eq]
        obtain ⟨ih1, ih2, ih3⟩ := ih ((te_emit_var P st v).1)
          (acc ++ (te_emit_var P st v).2.toList) hinv' hnd.2 e he hexp
        refine ⟨?_, ih2, ih3⟩
        rw [ih1, List.countP_append]
        have hz : ((te_emit_var P st v).2.toList).countP
            (fun pr => pr.1 == n) = 0 := by
          cases ho : (te_emit_var P st v).2 with
          | none => rfl
          | some pr =>
              have hname := te_emit_var_out_name hinv ho
              simp only [Option.toList_some, List.countP_singleton]
              have : (pr.1 == n) = false := by simp [hname, hv]
              simp [this]
        omega


/-- C4: a name bound in both a target-local scope and the global scope appears exactly once in the projector output, carrying the target-local value (here for a non-recursive local value, a non-private global binding, no pending jobserver invalidation, a name other than MAKELEVEL, and a binding the export filter accepts). -/
theorem claim_C4_env_projection (P : te_params) (L G : variable_set)
    (n : String) (v_loc v_glob : Variable)
    (hinv : P.invalid = none)
    (hL : lookup_variable_in_set n L = some v_loc)
    (hG : lookup_variable_in_set n G = some v_glob)
    (hLn : (L.vars.map Variable.name).Nodup)
    (hGn : (G.vars.map Variable.name).Nodup)
    (hgp : v_glob.private_var = false)
    (hrec : v_loc.recursive = false)
    (hml : n ≠ MAKELEVEL_NAME)
    (hexp : should_export P.export_all
        (if v_loc.export_status == v_default
         then { v_loc with export_status := v_glob.export_status }
         else v_loc) = true) :
    (target_environment_pairs P [⟨L, false⟩, ⟨G, true⟩]).countP
        (fun pr => pr.1 == n) = 1
    ∧ (n, v_loc.value)
        ∈ target_environment_pairs P [⟨L, false⟩, ⟨G, true⟩]
    ∧ (n ++ "=" ++ v_loc.value)
        ∈ target_environment P [⟨L, false⟩, ⟨G, true⟩] := by
  have hL' : L.vars.find? (fun w => w.name == n) = some v_loc := hL
  have hG' : G.vars.find? (fun w => w.name == n) = some v_glob := hG
  have hname : v_loc.name = n := by
    have := List.find?_some hL'
    simpa using this
  -- the accumulated table and its find
  have h1 : (te_add_set P.export_all true [] ⟨L, false⟩).find?
      (fun w => w.name == n) = some v_loc := by
    show (L.vars.foldl (te_add_var P.export_all true false) []).find?
        (fun w => w.name == n) = some v_loc
    rw [te_fold_find L.vars [] hLn, hL']
    simp [List.find?]
  have htabnd : ((te_add_set P.export_all false
      (te_add_set P.export_all true [] ⟨L, false⟩) ⟨G, true⟩).map
        Variable.name).Nodup := by
    refine te_fold_names_nodup G.vars _ ?_
    exact te_fold_names_nodup L.vars [] List.nodup_nil
  have h2 : (te_add_set P.export_all false
      (te_add_set P.export_all true [] ⟨L, false⟩) ⟨G, true⟩).find?
        (fun w => w.name == n)
      = some (if v_loc.export_status == v_default
              then { v_loc with export_status := v_glob.export_status }
              else v_loc) := by
    show (G.vars.foldl (te_add_var P.export_all false true)
        (te_add_set P.export_all true [] ⟨L, false⟩)).find?
        (fun w => w.name == n) = _
    rw [te_fold_find G.vars _ hGn, hG', h1]
    simp [hgp]
  have htab : te_accumulate P.export_all [⟨L, false⟩, ⟨G, true⟩]
      = te_add_set P.export_all false
          (te_add_set P.export_all true [] ⟨L, false⟩) ⟨G, true⟩ := rfl
  -- facts about the winning entry
  have hv1n : (if v_loc.export_status == v_default
      then { v_loc with export_status := v_glob.export_status }
      else v_loc).name = n := by
    split <;> simpa using hname
  have hv1r : (if v_loc.export_status == v_default
      then { v_loc with export_status := v_glob.export_status }
      else v_loc).recursive = false := by
    split <;> simpa using hrec
  have hv1v : (if v_loc.export_status == v_default
      then { v_loc with export_status := v_glob.export_status }
      else v_loc).value = v_loc.value := by
    split <;> rfl
  -- the output loop
  have hinit : (⟨P.shell_value.isNone, false, false, false,
      P.invalid⟩ : te_flags).invalid = none := hinv
  obtain ⟨hc1, hc2, hc3⟩ := te_fold_main P hml
    (te_add_set P.export_all false
      (te_add_set P.export_all true [] ⟨L, false⟩) ⟨G, true⟩)
    ⟨P.shell_value.isNone, false, false, false, P.invalid⟩ [] hinit
    htabnd _ h2 hexp
  rw [hv1r] at hc2
  simp only [Bool.false_and, Bool.false_eq_true, if_false, hv1v] at hc2
  have hemit : target_environment_pairs P [⟨L, false⟩, ⟨G, true⟩]
      = ((te_add_set P.export_all false
            (te_add_set P.export_all true [] ⟨L, false⟩)
            ⟨G, true⟩).foldl (te_step P)
          (⟨P.shell_value.isNone, false, false, false, P.invalid⟩, [])).2
        ++ (if !((te_add_set P.export_all false
              (te_add_set P.export_all true [] ⟨L, false⟩)
              ⟨G, true⟩).foldl (te_step P)
            (⟨P.shell_value.isNone, false, false, false, P.invalid⟩,
              [])).1.added_SHELL
            then [("SHELL", P.shell_value.getD "")] else [])
        ++ (if !((te_add_set P.export_all false
              (te_add_set P.export_all true [] ⟨L, false⟩)
              ⟨G, true⟩).foldl (te_step P)
            (⟨P.shell_value.isNone, false, false, false, P.invalid⟩,
              [])).1.found_makelevel
            then [(MAKELEVEL_NAME, toString (P.makelevel + 1))] else []) :=
    rfl
  have hshz : (if !((te_add_set P.export_all false
        (te_add_set P.export_all true [] ⟨L, false⟩)
        ⟨G, true⟩).foldl (te_step P)
      (⟨P.shell_value.isNone, false, false, false, P.invalid⟩,
        [])).1.added_SHELL
      then [("SHELL", P.shell_value.getD "")] else []).countP
        (fun pr => pr.1 == n) = 0 := by
    by_cases hsh : n = "SHELL"
    · rw [hc3 hsh]
      rfl
    · split
      · rw [List.countP_singleton]
        have : (("SHELL" : String) == n) = false := by
          simp
          intro hcon
          exact hsh hcon.symm
        simp [this]
      · rfl
  have hmlz : (if !((te_add_set P.export_all false
        (te_add_set P.export_all true [] ⟨L, false⟩)
        ⟨G, true⟩).foldl (te_step P)
      (⟨P.shell_value.isNone, false, false, false, P.invalid⟩,
        [])).1.found_makelevel
      then [(MAKELEVEL_NAME, toString (P.makelevel + 1))] else []).countP
        (fun pr => pr.1 == n) = 0 := by
    split
    · rw [List.countP_singleton]
      have : ((MAKELEVEL_NAME : String) == n) = false := by
        simp
        intro hcon
        exact hml hcon.symm
      simp [this]
    · rfl
  refine ⟨?_, ?_, ?_⟩
  · rw [hemit, List.countP_append, List.countP_append, hc1, hshz, hmlz]
    simp
  · rw [hemit]
    exact List.mem_append_left _ (List.mem_append_left _ hc2)
  · show (n ++ "=" ++ v_loc.value)
        ∈ (target_environment_pairs P [⟨L, false⟩, ⟨G, true⟩]).map
            (fun e => e.1 ++ "=" ++ e.2)
    rw [hemit]
    refine List.mem_map.mpr ⟨(n, v_loc.value), ?_, rfl⟩
    exact List.mem_append_left _ (List.mem_append_left _ hc2)


/-- C4 witness: a concrete two-scope chain with FOO bound locally to loc and globally to glob. -/
theorem claim_C4_env_projection_witness :
    (target_environment_pairs ⟨(fun v => v.value), false, none, 0, none⟩
        [⟨⟨[⟨"FOO", "loc", variable_origin.o_file, false, false, false,
              variable_export.v_export, true, false, false⟩]⟩, false⟩,
         ⟨⟨[⟨"FOO", "glob", variable_origin.o_file, false, false, false,
              variable_export.v_default, true, false, false⟩]⟩, true⟩]).countP
        (fun pr => pr.1 == "FOO") = 1
    ∧ ("FOO", "loc")
        ∈ target_environment_pairs ⟨(fun v => v.value), false, none, 0, none⟩
            [⟨⟨[⟨"FOO", "loc", variable_origin.o_file, false, false, false,
                  variable_export.v_export, true, false, false⟩]⟩, false⟩,
             ⟨⟨[⟨"FOO", "glob", variable_origin.o_file, false, false, false,
                  variable_export.v_default, true, false, false⟩]⟩, true⟩]
    ∧ ("FOO" ++ "=" ++ "loc")
        ∈ target_environment ⟨(fun v => v.value), false, none, 0, none⟩
            [⟨⟨[⟨"FOO", "loc", variable_origin.o_file, false, false, false,
                  variable_export.v_export, true, false, false⟩]⟩, false⟩,
             ⟨⟨[⟨"FOO", "glob", variable_origin.o_file, false, false, false,
                  variable_export.v_default, true, false, false⟩]⟩, true⟩] :=
  claim_C4_env_projection ⟨(fun v => v.value), false, none, 0, none⟩
    ⟨[⟨"FOO", "loc", variable_origin.o_file, false, false, false,
        variable_export.v_export, true, false, false⟩]⟩
    ⟨[⟨"FOO", "glob", variable_origin.o_file, false, false, false,
        variable_export.v_default, true, false, false⟩]⟩
    "FOO" _ _ rfl rfl rfl (by decide) (by decide) rfl rfl (by decide)
    (by decide)

end GmakeVars
